import Mathlib

/-!
# Verification of the metrics aggregation core (`internal/agent`)

Shallow embedding of the process-local metrics registry: the `counter` and
`gauge` primitives (`internal/agent/stats.go`), the `KeyMap` identity codec
(`internal/agent/keymap.go`) and the scope tree with its registry and flush
loop (`scope.go`).  Go `int64` values are modelled as `Int` normalised by
`wrapI64` at every arithmetic step; Go maps `map[string]string` are modelled
as association lists (`StringMap`); calls into the injected `StatsReporter`
are modelled as an emission trace.

The file is laid out as definitions first (translated from the Go source),
then the theorems about them.
-/

namespace Agent

/-! ## int64 arithmetic (two's complement wrap-around) -/

/-- Wrap an integer into the `int64` range, as Go's two's-complement
arithmetic does on overflow. -/
def wrapI64 (n : Int) : Int :=
  (n + 9223372036854775808) % 18446744073709551616 - 9223372036854775808

/-- `n` is representable as a Go `int64`. -/
def I64Range (n : Int) : Prop :=
  -9223372036854775808 ≤ n ∧ n < 9223372036854775808

instance (n : Int) : Decidable (I64Range n) := by
  unfold I64Range; infer_instance

/-! ## Reporter emission trace

The injected `StatsReporter` interface (`ReportCounter` / `ReportGauge` /
`Flush`) is modelled by recording each call as an `Emission`.  Gauge values
are IEEE-754 `float64`; the code only ever moves them through
`math.Float64bits` / `math.Float64frombits` (a bijection) and performs no
floating-point arithmetic, so gauge values are represented by their 64-bit
patterns (`Nat`). -/

/-- Tag maps (`map[string]string`) as association lists. -/
abbrev StringMap := List (String × String)

/-- One call into the injected `StatsReporter`. -/
inductive Emission where
  | reportCounter (name : String) (tags : StringMap) (delta : Int)
  | reportGauge (name : String) (tags : StringMap) (bits : Nat)
  | flush
  deriving DecidableEq, Repr

/-- Is this emission a `Flush()` call? -/
def Emission.isFlush : Emission → Bool
  | .flush => true
  | _ => false

/-! ## Counter (`stats.go`)

```go
type counter struct { prev int64; curr int64 }
func (c *counter) Inc(v int64) { atomic.AddInt64(&c.curr, v) }
func (c *counter) value() int64 {
    curr := atomic.LoadInt64(&c.curr); prev := atomic.LoadInt64(&c.prev)
    if prev == curr { return 0 }
    atomic.StoreInt64(&c.prev, curr); return curr - prev
}
func (c *counter) snapshot() int64 { return c.curr - c.prev }
func (c *counter) report(...) { delta := c.value(); if delta == 0 { return }; r.ReportCounter(...) }
```
`value` both returns the delta and mutates `prev`, so it is modelled as
`Counter → Int × Counter`.  `snapshot` performs two atomic loads and no
store, so it is a pure function `Counter → Int`. -/

structure Counter where
  prev : Int
  curr : Int
  deriving DecidableEq, Repr

def newCounter : Counter := ⟨0, 0⟩

/-- `counter.Inc`: `atomic.AddInt64(&c.curr, v)` (wrapping `int64` add). -/
def Counter.Inc (c : Counter) (v : Int) : Counter :=
  { c with curr := wrapI64 (c.curr + v) }

/-- `counter.value` (the spec's `ConsumeDelta`): returns `curr - prev` and
sets `prev := curr`, or returns `0` leaving the state alone when they are
already equal. -/
def Counter.value (c : Counter) : Int × Counter :=
  if c.prev = c.curr then (0, c)
  else (wrapI64 (c.curr - c.prev), { c with prev := c.curr })

/-- `counter.snapshot`: two atomic loads, no store. -/
def Counter.snapshot (c : Counter) : Int :=
  wrapI64 (c.curr - c.prev)

/-- `counter.report`: consume the delta, emit `ReportCounter` only when it
is nonzero. -/
def Counter.report (c : Counter) (name : String) (tags : StringMap) :
    Counter × List Emission :=
  let r := c.value
  if r.1 = 0 then (r.2, [])
  else (r.2, [Emission.reportCounter name tags r.1])

/-- A sequence of `Inc` calls. -/
def Counter.incs (c : Counter) (ds : List Int) : Counter :=
  ds.foldl Counter.Inc c

/-! ## Gauge (`stats.go`)

```go
type gauge struct { updated uint64; curr uint64 }
func (g *gauge) Update(v float64) { atomic.StoreUint64(&g.curr, math.Float64bits(v)); atomic.StoreUint64(&g.updated, 1) }
func (g *gauge) report(...) { if atomic.SwapUint64(&g.updated, 0) == 1 { r.ReportGauge(name, tags, g.value()) } }
```
-/

structure Gauge where
  updated : Nat
  curr : Nat
  deriving DecidableEq, Repr

def newGauge : Gauge := ⟨0, 0⟩

/-- `gauge.Update`: store the value's bit pattern, set the dirty flag. -/
def Gauge.Update (g : Gauge) (bits : Nat) : Gauge :=
  { g with curr := bits, updated := 1 }

/-- `gauge.value`: load the stored bit pattern back. -/
def Gauge.value (g : Gauge) : Nat := g.curr

/-- `gauge.snapshot`: identical load. -/
def Gauge.snapshot (g : Gauge) : Nat := g.curr

/-- `gauge.report`: swap the dirty flag to 0; emit only if it was 1. -/
def Gauge.report (g : Gauge) (name : String) (tags : StringMap) :
    Gauge × List Emission :=
  let g' := { g with updated := 0 }
  if g.updated = 1 then (g', [Emission.reportGauge name tags g'.value])
  else (g', [])

/-! ## KeyMap (`keymap.go`)

```go
const ( nameSplitter = '='; pairSplitter = ','; prefixSplitter = '+' )

func KeyMap(prefix string, stringMap map[string]string) string {
    keys := keyDB.stringsDB.get().([]string)
    for k := range stringMap { keys = append(keys, k) }
    sort.Strings(keys)
    buf := keyDB.bufferDB.get().(*bytes.Buffer)
    if prefix != emptyString { buf.WriteString(prefix); buf.WriteByte(prefixSplitter) }
    sortedKeysLen := len(stringMap)
    for i := 0; i < sortedKeysLen; i++ {
        buf.WriteString(keys[i]); buf.WriteByte(nameSplitter); buf.WriteString(stringMap[keys[i]])
        if i != sortedKeysLen-1 { buf.WriteByte(pairSplitter) }
    }
    key := buf.String(); keyDB.release(buf, keys); return key
}
```

`keyMapWith keys0 buf0` exposes the contents of the pooled key slice and
pooled buffer as parameters: the Go code appends the map's keys after
whatever `keys0` already holds, sorts the combined slice, reads only the
first `len(stringMap)` entries of it, and appends its output to whatever the
pooled buffer `buf0` already holds.  The `for i` loop writing
`key=value` entries with a `pairSplitter` after every entry except the last
is rendered as the structural recursion `writeEntries` over the list of used
keys.  A key absent from the map (possible only with a polluted `keys0`)
reads the Go zero value `""`, as `lookupD` does. -/

def nameSplitter : Char := '='
def pairSplitter : Char := ','
def prefixSplitter : Char := '+'

/-- The keys of a tag map (Go `for k := range stringMap`). -/
def mapKeys (m : StringMap) : List String := m.map (·.1)

/-- Go map lookup: the value bound to `k`, if any. -/
def lookup? (m : StringMap) (k : String) : Option String :=
  (m.find? (fun p => p.1 == k)).map (·.2)

/-- Go map indexing `m[k]`: zero value `""` when absent. -/
def lookupD (m : StringMap) (k : String) : String :=
  (lookup? m k).getD ""

/-- An association list faithfully represents a Go map iff its keys are
duplicate-free. -/
def NodupKeys (m : StringMap) : Prop := (mapKeys m).Nodup

instance (m : StringMap) : Decidable (NodupKeys m) := by
  unfold NodupKeys; infer_instance

/-- `sort.Strings`: ascending lexicographic sort. -/
def sortStrings (l : List String) : List String :=
  l.insertionSort (· ≤ ·)

/-- The key/value writing loop of `KeyMap`: for each used key `k` emit
`k=stringMap[k]`, with a `pairSplitter` between consecutive entries
(i.e. after every entry except the last). -/
def writeEntries (m : StringMap) : List String → String
  | [] => ""
  | [k] => k ++ String.singleton nameSplitter ++ lookupD m k
  | k :: rest =>
      k ++ String.singleton nameSplitter ++ lookupD m k ++ String.singleton pairSplitter ++
        writeEntries m rest

/-- `KeyMap` with the pooled scratch state (`keys0`: contents of the pooled
key slice, `buf0`: contents of the pooled buffer) made explicit. -/
def keyMapWith (keys0 : List String) (buf0 : String) (pfx : String) (m : StringMap) : String :=
  let keys := sortStrings (keys0 ++ mapKeys m)
  let buf1 := if pfx ≠ "" then buf0 ++ pfx ++ String.singleton prefixSplitter else buf0
  buf1 ++ writeEntries m (keys.take m.length)

/-- `KeyMap(prefix, stringMap)`: scratch state obtained from the pool is
always empty (see `ItemDB.WF` and `keyMapPool`). -/
def KeyMap (pfx : String) (m : StringMap) : String :=
  keyMapWith [] "" pfx m

/-! ### The scratch-object pool (`DB` / `itemDB` in `keymap.go`)

`DB` is a bounded channel used as an object pool: `get` takes a pooled
object or allocates a fresh (empty) one, `put` returns an object unless the
channel is full.  `itemDB.release` resets the buffer (`b.Reset()`) and
truncates the key slice (`strs[:0]`, after blanking the entries) before
pooling them. -/

/-- Objects currently sitting in the two pool channels: buffer contents and
key-slice contents. -/
structure ItemDB where
  bufs : List String
  strs : List (List String)
  deriving DecidableEq, Repr

/-- `DB.get`: take from the channel, or fall back to a fresh allocation
(`alloc` produces an empty buffer / empty slice). -/
def dbGet {α : Type} (pool : List α) (fresh : α) : α × List α :=
  match pool with
  | [] => (fresh, [])
  | x :: rest => (x, rest)

/-- `DB.put`: send back to the channel unless it is full (then drop). -/
def dbPut {α : Type} (cap : Nat) (pool : List α) (x : α) : List α :=
  if pool.length < cap then pool ++ [x] else pool

/-- Channel capacity of `keyDB` (`newKeyDB(512, ...)`). -/
def poolCap : Nat := 512

/-- One `KeyMap` call together with its pool interaction: get a key slice
and a buffer, build the key, then release both (reset to empty) back into
the pool. -/
def keyMapPool (db : ItemDB) (pfx : String) (m : StringMap) : String × ItemDB :=
  let s := dbGet db.strs []
  let b := dbGet db.bufs ""
  let key := keyMapWith s.1 b.1 pfx m
  (key, ⟨dbPut poolCap b.2 "", dbPut poolCap s.2 []⟩)

/-- Pool invariant: every pooled object has been fully reset — buffers are
empty, key slices have length zero. -/
def ItemDB.WF (db : ItemDB) : Prop :=
  (∀ b ∈ db.bufs, b = "") ∧ (∀ s ∈ db.strs, s = [])

instance (db : ItemDB) : Decidable db.WF := by
  unfold ItemDB.WF; infer_instance

/-! ### Character-level view of the encoding

For the injectivity argument the produced strings are analysed as their
character lists. -/

abbrev Chars := List Char

/-- Character-level form of the `key=value` pair list. -/
def pairsChars : List (Chars × Chars) → Chars
  | [] => []
  | [kv] => kv.1 ++ nameSplitter :: kv.2
  | kv :: rest => kv.1 ++ nameSplitter :: (kv.2 ++ pairSplitter :: pairsChars rest)

/-- Character-level form of a whole key. -/
def keyChars (p : Chars) (l : List (Chars × Chars)) : Chars :=
  if p.isEmpty then pairsChars l else p ++ prefixSplitter :: pairsChars l

/-- The canonical (sorted-key) entry list of a map, at character level. -/
def entriesOf (m : StringMap) : List (Chars × Chars) :=
  (sortStrings (mapKeys m)).map (fun k => (k.data, (lookupD m k).data))

/-- A character list over the expected alphabet: none of the three reserved
separator characters occur in it. -/
def CleanChars (s : Chars) : Prop :=
  ∀ c ∈ s, c ≠ nameSplitter ∧ c ≠ pairSplitter ∧ c ≠ prefixSplitter

/-- A pair list over the expected alphabet. -/
def CleanPairs (l : List (Chars × Chars)) : Prop :=
  ∀ kv ∈ l, CleanChars kv.1 ∧ CleanChars kv.2

/-- A string over the expected alphabet. -/
def CleanStr (s : String) : Prop := CleanChars s.data

instance (s : Chars) : Decidable (CleanChars s) := by
  unfold CleanChars; infer_instance

instance (s : String) : Decidable (CleanStr s) := by
  unfold CleanStr; infer_instance

/-- A tag map over the expected alphabet. -/
def CleanMap (m : StringMap) : Prop :=
  ∀ kv ∈ m, CleanStr kv.1 ∧ CleanStr kv.2

instance (m : StringMap) : Decidable (CleanMap m) := by
  unfold CleanMap; infer_instance

/-! ## Scope tree, registry and report loop (`scope.go`)

A whole scope tree is one `AgentState`: the arena `scopes` holds every
`scope` object ever created (a Go pointer is modelled as an index into this
arena, so "same underlying Scope object" is "same index"); `registry` is the
shared `scopeRegistry.subscopes` map from canonical identity to scope;
`closed` / `quitClosed` model the root's `scopeStatus` (`closed` flag and
whether `close(quit)` has been executed).  `hasReporter` models
`s.reporter != nil`.  Go map iteration order is unspecified; the model
iterates registration order, which is one admissible order — the claims
proved below are order-insensitive (emission counts, emptiness, lookups).

The status mutex serialises `reportLoopRun` and `Close`, and the registry
mutex serialises whole flush passes, so a pass is modelled as one atomic
state transition producing its emission trace. -/

structure ScopeData where
  /-- the `prefix` field -/
  pfx : String
  separator : String
  tags : StringMap
  counters : List (String × Counter)
  gauges : List (String × Gauge)
  deriving DecidableEq, Repr

structure AgentState where
  /-- `s.reporter != nil` -/
  hasReporter : Bool
  scopes : List ScopeData
  registry : List (String × Nat)
  closed : Bool
  quitClosed : Bool
  deriving DecidableEq, Repr

/-- `DefaultSeparator` -/
def DefaultSeparator : String := "."

/-- `newRootScope`: nil tags become the empty map, an empty separator
becomes the default, and the root registers itself in the fresh registry
under its own identity. -/
def newRootScope (pfx : String) (tags : StringMap) (separator : String)
    (hasReporter : Bool) : AgentState :=
  let sep := if separator = "" then DefaultSeparator else separator
  { hasReporter := hasReporter
    scopes := [⟨pfx, sep, tags, [], []⟩]
    registry := [(KeyMap pfx tags, 0)]
    closed := false
    quitClosed := false }

def defaultScopeData : ScopeData := ⟨"", "", [], [], []⟩

/-- Dereference a scope "pointer". -/
def getScope (st : AgentState) (sid : Nat) : ScopeData :=
  st.scopes.getD sid defaultScopeData

/-- `scope.fullyQualifiedName`. -/
def fullyQualifiedName (sd : ScopeData) (name : String) : String :=
  if sd.pfx.length = 0 then name else sd.pfx ++ sd.separator ++ name

/-- Registry lookup `s.registry.subscopes[key]`. -/
def lookupReg (reg : List (String × Nat)) (k : String) : Option Nat :=
  (reg.find? (fun p => p.1 == k)).map (·.2)

/-- `mergeRightTags`: right-hand tags win on conflicting keys; the nil/empty
short cuts return the other operand unchanged (the same map object). -/
def mergeRightTags (l r : StringMap) : StringMap :=
  if r = [] then l
  else if l = [] then r
  else l.filter (fun p => (lookup? r p.1).isNone) ++ r

/-- `scope.subscope`: merge the tags, compute the canonical key, return the
registered scope if the key is present; otherwise `newSubscope` re-checks
under the registry lock (the state is unchanged in between, so the second
lookup misses again) and creates and registers a fresh scope. -/
def subscope (st : AgentState) (sid : Nat) (pfx : String) (immutableTags : StringMap) :
    AgentState × Nat :=
  let merged := mergeRightTags (getScope st sid).tags immutableTags
  let key := KeyMap pfx merged
  match lookupReg st.registry key with
  | some id => (st, id)
  | none =>
      let id := st.scopes.length
      ({ st with
          scopes := st.scopes ++ [⟨pfx, (getScope st sid).separator, merged, [], []⟩]
          registry := st.registry ++ [(key, id)] }, id)

/-- `scope.Tagged` (the argument map is copied first). -/
def Tagged (st : AgentState) (sid : Nat) (tags : StringMap) : AgentState × Nat :=
  subscope st sid (getScope st sid).pfx tags

/-- `scope.SubScope` (passes nil extra tags). -/
def SubScope (st : AgentState) (sid : Nat) (name : String) : AgentState × Nat :=
  subscope st sid (fullyQualifiedName (getScope st sid) name) []

/-- `scope.Counter` / `scope.counter`: double-checked get-or-create of the
named counter. -/
def scopeCounter (st : AgentState) (sid : Nat) (name : String) : AgentState :=
  let sd := getScope st sid
  if (sd.counters.find? (fun p => p.1 == name)).isSome then st
  else { st with scopes := st.scopes.set sid { sd with counters := sd.counters ++ [(name, newCounter)] } }

/-- `scope.Gauge` / `scope.gauge`. -/
def scopeGauge (st : AgentState) (sid : Nat) (name : String) : AgentState :=
  let sd := getScope st sid
  if (sd.gauges.find? (fun p => p.1 == name)).isSome then st
  else { st with scopes := st.scopes.set sid { sd with gauges := sd.gauges ++ [(name, newGauge)] } }

/-- `Counter(name).Inc(v)` on a scope. -/
def scopeInc (st : AgentState) (sid : Nat) (name : String) (v : Int) : AgentState :=
  let sd := getScope st sid
  let sd' := { sd with counters := sd.counters.map (fun p => if p.1 = name then (p.1, p.2.Inc v) else p) }
  { st with scopes := st.scopes.set sid sd' }

/-- `Gauge(name).Update(x)` on a scope. -/
def scopeUpdate (st : AgentState) (sid : Nat) (name : String) (bits : Nat) : AgentState :=
  let sd := getScope st sid
  let sd' := { sd with gauges := sd.gauges.map (fun p => if p.1 = name then (p.1, p.2.Update bits) else p) }
  { st with scopes := st.scopes.set sid sd' }

/-- One iteration of `scope.report`'s counter loop: consume and forward one
counter. -/
def counterStep (sd : ScopeData) (acc : List (String × Counter) × List Emission)
    (nc : String × Counter) : List (String × Counter) × List Emission :=
  let r := (nc.2).report (fullyQualifiedName sd nc.1) sd.tags
  (acc.1 ++ [(nc.1, r.1)], acc.2 ++ r.2)

/-- One iteration of `scope.report`'s gauge loop. -/
def gaugeStep (sd : ScopeData) (acc : List (String × Gauge) × List Emission)
    (ng : String × Gauge) : List (String × Gauge) × List Emission :=
  let r := (ng.2).report (fullyQualifiedName sd ng.1) sd.tags
  (acc.1 ++ [(ng.1, r.1)], acc.2 ++ r.2)

/-- `scope.report`: forward every counter delta and every dirty gauge of
this scope to the reporter, then call `r.Flush()`. -/
def scopeReport (sd : ScopeData) : ScopeData × List Emission :=
  let cres := sd.counters.foldl (counterStep sd) ([], [])
  let gres := sd.gauges.foldl (gaugeStep sd) ([], [])
  ({ sd with counters := cres.1, gauges := gres.1 }, cres.2 ++ gres.2 ++ [Emission.flush])

/-- One iteration of `reportRegistryWithLock`'s loop: run `report` on one
registered scope (`ss.report(s.reporter)`). -/
def registryStep (acc : List ScopeData × List Emission) (entry : String × Nat) :
    List ScopeData × List Emission :=
  match acc.1[entry.2]? with
  | none => acc
  | some sd =>
      let r := scopeReport sd
      (acc.1.set entry.2 r.1, acc.2 ++ r.2)

/-- `scope.reportRegistryWithLock`: under the registry lock, if a reporter
is installed, visit every registered scope and run its `report`. -/
def reportRegistry (st : AgentState) : AgentState × List Emission :=
  if st.hasReporter then
    let res := st.registry.foldl registryStep (st.scopes, [])
    ({ st with scopes := res.1 }, res.2)
  else (st, [])

/-- `scope.reportLoopRun` (one timer tick, also the body of `Report()`):
under the status lock, do nothing if closed, otherwise run a flush pass. -/
def reportLoopRun (st : AgentState) : AgentState × List Emission :=
  if st.closed then (st, []) else reportRegistry st

/-- `scope.Report`. -/
def Report (st : AgentState) : AgentState × List Emission :=
  reportLoopRun st

/-- Go `close(ch)`: panics (`none`) if the channel is already closed. -/
def closeQuit (st : AgentState) : Option AgentState :=
  if st.quitClosed then none else some { st with quitClosed := true }

/-- `scope.Close`: under the status lock, return immediately if already
closed; otherwise set `closed`, close the quit channel (stopping the report
loop) and run one final flush pass synchronously.  `none` models a panic. -/
def Close (st : AgentState) : Option (AgentState × List Emission) :=
  if st.closed then some (st, [])
  else
    match closeQuit { st with closed := true } with
    | none => none
    | some st1 => some (reportRegistry st1)

/-- The canonical identity under which a scope is registered. -/
def keyOf (sd : ScopeData) : String := KeyMap sd.pfx sd.tags

/-! ## Two racing `ConsumeDelta` calls (C9)

In the program, `counter.value()` is reached only through
`counter.report ← scope.report ← reportRegistryWithLock`, which holds the
registry mutex for the whole pass, so consumptions of one counter are
serialised by that mutex even when two flush passes (timer tick, manual
`Report()`, `Close()`, or a `Report()` on another scope handle of the same
tree) race.  To check the claim this is modelled at instruction granularity:
each `sync/atomic` load/store of `value()` is one atomic small step, a
schedule is an arbitrary interleaving of the two threads, and the mutex is
an explicit lock acquired before the call and released when it returns.

Thread program counters (one `counter.value()` call under the lock):
`0` = waiting to acquire the lock, `1` = `curr := atomic.LoadInt64(&c.curr)`,
`2` = `prev := atomic.LoadInt64(&c.prev)`, `3` = the `prev == curr` test,
`4` = `atomic.StoreInt64(&c.prev, curr)`, `5` = compute `curr - prev`,
return it and release the lock, `6` = done.  `curr` is constant: the claim
is about one interval of updates, i.e. no `Inc` runs between the two
consumptions. -/

structure ConsumeThread where
  pc : Nat
  rCurr : Int
  rPrev : Int
  res : Option Int
  deriving DecidableEq, Repr

structure RaceState where
  curr : Int
  prev : Int
  /-- owner of the registry mutex, if held -/
  lockHeld : Option Bool
  t0 : ConsumeThread
  t1 : ConsumeThread
  deriving DecidableEq, Repr

def RaceState.th (s : RaceState) (i : Bool) : ConsumeThread :=
  if i then s.t1 else s.t0

def RaceState.setTh (s : RaceState) (i : Bool) (t : ConsumeThread) : RaceState :=
  if i then { s with t1 := t } else { s with t0 := t }

/-- One atomic step of thread `i`; a blocked thread (waiting on the held
lock) makes no progress. -/
def raceStep (s : RaceState) (i : Bool) : RaceState :=
  let t := s.th i
  if t.pc = 0 then
    if s.lockHeld = none then
      let s1 := s.setTh i { t with pc := 1 }
      { s1 with lockHeld := some i }
    else s
  else if t.pc = 1 then s.setTh i { t with rCurr := s.curr, pc := 2 }
  else if t.pc = 2 then s.setTh i { t with rPrev := s.prev, pc := 3 }
  else if t.pc = 3 then
    if t.rPrev = t.rCurr then
      let s1 := s.setTh i { t with res := some 0, pc := 6 }
      { s1 with lockHeld := none }
    else s.setTh i { t with pc := 4 }
  else if t.pc = 4 then
    let s1 := s.setTh i { t with pc := 5 }
    { s1 with prev := t.rCurr }
  else if t.pc = 5 then
    let s1 := s.setTh i { t with res := some (wrapI64 (t.rCurr - t.rPrev)), pc := 6 }
    { s1 with lockHeld := none }
  else s

/-- Run a whole schedule (an arbitrary interleaving of the two threads). -/
def raceRun (s : RaceState) (sched : List Bool) : RaceState :=
  sched.foldl raceStep s

def newThread : ConsumeThread := ⟨0, 0, 0, none⟩

/-- Initial state: baseline `p`, running total `c`, lock free, both threads
about to call `counter.value()`. -/
def raceInit (p c : Int) : RaceState := ⟨c, p, none, newThread, newThread⟩

/-- Per-thread invariant: registers agree with the shared cell while the
thread is inside its call. -/
def thInv (c : Int) (prev : Int) (t : ConsumeThread) : Prop :=
  t.pc ≤ 6 ∧
  (2 ≤ t.pc ∧ t.pc ≤ 5 → t.rCurr = c) ∧
  (t.pc = 3 → t.rPrev = prev) ∧
  (t.pc = 4 → t.rPrev = prev ∧ t.rPrev ≠ c) ∧
  (t.pc = 5 → prev = c ∧ t.rPrev ≠ c ∧ I64Range t.rPrev)

/-- Global invariant of the race: mutual exclusion through the lock, the
per-thread register facts, after any nonzero consumption the baseline equals
the total (and the other thread can no longer be about to consume a nonzero
delta), and never two nonzero results. -/
structure RaceInv (c : Int) (s : RaceState) : Prop where
  curr_eq : s.curr = c
  range_c : I64Range c
  range_prev : I64Range s.prev
  lock0 : s.lockHeld = some false ↔ (1 ≤ s.t0.pc ∧ s.t0.pc ≤ 5)
  lock1 : s.lockHeld = some true ↔ (1 ≤ s.t1.pc ∧ s.t1.pc ≤ 5)
  th0 : thInv c s.prev s.t0
  th1 : thInv c s.prev s.t1
  res0 : ∀ r : Int, s.t0.res = some r → r ≠ 0 → s.prev = c ∧ s.t1.pc ≠ 4 ∧ s.t1.pc ≠ 5
  res1 : ∀ r : Int, s.t1.res = some r → r ≠ 0 → s.prev = c ∧ s.t0.pc ≠ 4 ∧ s.t0.pc ≠ 5
  not_both : ¬(∃ r0 r1 : Int, s.t0.res = some r0 ∧ r0 ≠ 0 ∧ s.t1.res = some r1 ∧ r1 ≠ 0)

/-- Registry well-formedness, established by `newRootScope` and preserved by
every operation: every registry entry points into the arena at a scope whose
identity is the entry's key, registry keys are unique, every scope is
registered under its own identity, and every scope's tag map has unique
keys. -/
def AgentState.WF (st : AgentState) : Prop :=
  (∀ p ∈ st.registry, p.2 < st.scopes.length ∧ keyOf (getScope st p.2) = p.1) ∧
  (st.registry.map (·.1)).Nodup ∧
  (∀ sid, sid < st.scopes.length → (keyOf (getScope st sid), sid) ∈ st.registry) ∧
  (∀ sd ∈ st.scopes, NodupKeys sd.tags)

instance (st : AgentState) : Decidable st.WF := by
  unfold AgentState.WF; infer_instance

/-! # Theorems -/

/-! ## int64 lemmas -/

theorem wrapI64_of_range {n : Int} (h : I64Range n) : wrapI64 n = n := by
  unfold I64Range at h; unfold wrapI64; omega

theorem wrapI64_range (n : Int) : I64Range (wrapI64 n) := by
  unfold I64Range wrapI64; omega

theorem wrapI64_add_left (a b : Int) : wrapI64 (wrapI64 a + b) = wrapI64 (a + b) := by
  unfold wrapI64; omega

theorem wrapI64_sub_left (a b : Int) : wrapI64 (wrapI64 a - b) = wrapI64 (a - b) := by
  unfold wrapI64; omega

/-! ## Counter lemmas -/

theorem Counter.incs_prev (c : Counter) (ds : List Int) : (c.incs ds).prev = c.prev := by
  induction ds generalizing c with
  | nil => rfl
  | cons d ds ih => simpa [Counter.incs, List.foldl_cons, Counter.Inc] using ih (c.Inc d)

theorem Counter.incs_curr (c : Counter) (ds : List Int) :
    (c.incs ds).curr = wrapI64 (c.curr + ds.sum) ∨ (ds = [] ∧ (c.incs ds).curr = c.curr) := by
  induction ds generalizing c with
  | nil => exact Or.inr ⟨rfl, rfl⟩
  | cons d ds ih =>
    left
    rcases ih (c.Inc d) with h | ⟨hnil, h⟩
    · rw [Counter.incs, List.foldl_cons, ← Counter.incs] at *
      rw [h, Counter.Inc, wrapI64_add_left, List.sum_cons]
      ring_nf
    · subst hnil
      simp only [Counter.incs, List.foldl_cons, List.foldl_nil, Counter.Inc, List.sum_cons,
        List.sum_nil, add_zero] at *

theorem Counter.incs_curr_of_range (c : Counter) (ds : List Int) (h : I64Range c.curr) :
    (c.incs ds).curr = wrapI64 (c.curr + ds.sum) := by
  rcases Counter.incs_curr c ds with h' | ⟨hnil, h'⟩
  · exact h'
  · subst hnil
    simp [h', wrapI64_of_range h]

/-! ## C1, C7, C8 -/

/-- C1: starting from a just-consumed counter (`prev = curr`), a sequence of
`Inc` calls with deltas `ds` summing (as `int64` values) to `S` makes the next
`counter.value()` consumption return exactly `S`, leave `curr` untouched and
set the baseline `prev` to the current total; an immediately following third
consumption returns `0` and changes nothing; and `counter.report` emits no
`ReportCounter` call whenever the consumed delta is zero. -/
theorem counter_consume_delta_sum (c : Counter) (ds : List Int) (name : String)
    (tags : StringMap) (hconsumed : c.prev = c.curr) (hrange : I64Range c.curr)
    (hsum : I64Range ds.sum) :
    ((c.incs ds).value).1 = ds.sum ∧
    ((c.incs ds).value).2.prev = ((c.incs ds).value).2.curr ∧
    ((c.incs ds).value).2.curr = (c.incs ds).curr ∧
    (((c.incs ds).value).2.value) = (0, ((c.incs ds).value).2) ∧
    (∀ c' : Counter, (c'.value).1 = 0 → (c'.report name tags).2 = []) := by
  have hprev : (c.incs ds).prev = c.curr := by rw [Counter.incs_prev, hconsumed]
  have hcurr : (c.incs ds).curr = wrapI64 (c.curr + ds.sum) :=
    Counter.incs_curr_of_range c ds hrange
  have hreport : ∀ c' : Counter, (c'.value).1 = 0 → (c'.report name tags).2 = [] := by
    intro c' h
    simp only [Counter.report, h, if_pos]
  by_cases heq : (c.incs ds).prev = (c.incs ds).curr
  · have hzero : ds.sum = 0 := by
      rw [hprev, hcurr] at heq
      unfold wrapI64 at heq
      unfold I64Range at hrange hsum
      omega
    refine ⟨?_, ?_, ?_, ?_, hreport⟩
    · simp [Counter.value, heq, hzero]
    · simp [Counter.value, heq]
    · simp [Counter.value, heq]
    · simp [Counter.value, heq]
  · have hval : (c.incs ds).value =
        (wrapI64 ((c.incs ds).curr - (c.incs ds).prev),
          { c.incs ds with prev := (c.incs ds).curr }) := by
      simp [Counter.value, heq]
    refine ⟨?_, ?_, ?_, ?_, hreport⟩
    · rw [hval]
      simp only [hprev, hcurr, wrapI64_sub_left]
      have : c.curr + ds.sum - c.curr = ds.sum := by ring
      rw [this, wrapI64_of_range hsum]
    · simp [hval]
    · simp [hval]
    · rw [hval]
      show Counter.value ⟨(c.incs ds).curr, (c.incs ds).curr⟩ = _
      simp [Counter.value]

/-- Witness for `counter_consume_delta_sum` at a concrete input. -/
theorem counter_consume_delta_sum_witness :
    I64Range (([2, 3] : List Int).sum) ∧
    ((newCounter.incs [2, 3]).value).1 = ([2, 3] : List Int).sum :=
  ⟨by decide,
    (counter_consume_delta_sum newCounter [2, 3] "PollCount" [] rfl (by decide) (by decide)).1⟩

/-- C7: `gauge.Update(x)` sets the dirty flag and stores `x`; the next
`gauge.report` consumption observes `x` with the dirty flag set and emits
exactly one `ReportGauge(name, tags, x)`, clearing the flag; an immediately
following second consumption with no intervening `Update` emits nothing and
leaves the gauge unchanged. -/
theorem gauge_update_consume (g : Gauge) (x : Nat) (name : String) (tags : StringMap) :
    (g.Update x).updated = 1 ∧ (g.Update x).value = x ∧
    ((g.Update x).report name tags).2 = [Emission.reportGauge name tags x] ∧
    ((g.Update x).report name tags).1.updated = 0 ∧
    ((g.Update x).report name tags).1.value = x ∧
    (((g.Update x).report name tags).1.report name tags) =
      (((g.Update x).report name tags).1, []) := by
  simp [Gauge.Update, Gauge.report, Gauge.value]

/-- C8 counterexample: `counter.snapshot` does not return the sum of all
`Inc` deltas since the counter's creation.  After `Inc 5`, one consumption
and `Inc 3`, the snapshot is `3` (the delta since the last consumption), not
the all-time total `8`. -/
theorem counter_snapshot_not_alltime_total :
    ((((newCounter.Inc 5).value).2.Inc 3).snapshot = 3) ∧
    ((((newCounter.Inc 5).value).2.Inc 3).snapshot ≠ 5 + 3) := by decide

/-- C8 (amended): `counter.snapshot()` returns `current − lastReported` — the
sum of the `Inc` deltas since the last consumption (which coincides with the
all-time total only while no consumption has happened) — and, being compiled
from two atomic loads with no store, it is a pure function: it leaves the
baseline unchanged, so it returns exactly what the next `counter.value()`
consumption would return without affecting it. -/
theorem counter_snapshot_pending_delta (c : Counter) (ds : List Int)
    (hconsumed : c.prev = c.curr) (hrange : I64Range c.curr) :
    (∀ c' : Counter, c'.snapshot = (c'.value).1) ∧
    ((c.incs ds).snapshot = wrapI64 ds.sum) ∧
    (I64Range ds.sum → (c.incs ds).snapshot = ds.sum) := by
  have hprev : (c.incs ds).prev = c.curr := by rw [Counter.incs_prev, hconsumed]
  have hcurr : (c.incs ds).curr = wrapI64 (c.curr + ds.sum) :=
    Counter.incs_curr_of_range c ds hrange
  have hsnap : (c.incs ds).snapshot = wrapI64 ds.sum := by
    rw [Counter.snapshot, hprev, hcurr, wrapI64_sub_left]
    have : c.curr + ds.sum - c.curr = ds.sum := by ring
    rw [this]
  refine ⟨?_, hsnap, fun h => by rw [hsnap, wrapI64_of_range h]⟩
  intro c'
  by_cases heq : c'.prev = c'.curr
  · simp [Counter.snapshot, Counter.value, heq, wrapI64]
  · simp [Counter.snapshot, Counter.value, heq]

/-- Witness for `counter_snapshot_pending_delta` at a concrete input. -/
theorem counter_snapshot_pending_delta_witness :
    I64Range (newCounter.curr) ∧ ((newCounter.incs [7]).snapshot = wrapI64 ([7] : List Int).sum) :=
  ⟨by decide, (counter_snapshot_pending_delta newCounter [7] rfl (by decide)).2.1⟩

/-! ## Map lookup lemmas -/

theorem mapKeys_cons (p : String × String) (rest : StringMap) :
    mapKeys (p :: rest) = p.1 :: mapKeys rest := rfl

theorem lookup?_eq_none_iff (m : StringMap) (k : String) :
    lookup? m k = none ↔ k ∉ mapKeys m := by
  unfold lookup? mapKeys
  rw [Option.map_eq_none', List.find?_eq_none]
  constructor
  · intro h hk
    obtain ⟨p, hp, hpk⟩ := List.mem_map.mp hk
    have := h p hp
    simp [hpk] at this
  · intro h p hp
    simp only [beq_iff_eq]
    intro hpk
    exact h (List.mem_map.mpr ⟨p, hp, hpk⟩)

theorem lookup?_eq_some_of_mem {m : StringMap} {k v : String}
    (hm : NodupKeys m) (h : (k, v) ∈ m) : lookup? m k = some v := by
  induction m with
  | nil => cases h
  | cons p rest ih =>
    have hm' : (p.1 :: mapKeys rest).Nodup := by
      rw [← mapKeys_cons]; exact hm
    obtain ⟨hk, hrest⟩ := List.nodup_cons.mp hm'
    rcases List.mem_cons.mp h with h | h
    · subst h
      simp [lookup?, List.find?_cons]
    · have hne : p.1 ≠ k := by
        intro he
        exact hk (by simpa [mapKeys, he] using List.mem_map_of_mem (·.1) h)
      have := ih hrest h
      simpa [lookup?, List.find?_cons, hne] using this

theorem mem_of_lookup?_eq_some {m : StringMap} {k v : String}
    (h : lookup? m k = some v) : (k, v) ∈ m := by
  unfold lookup? at h
  obtain ⟨p, hp, hpv⟩ := Option.map_eq_some'.mp h
  have hpm : p ∈ m := List.mem_of_find?_eq_some hp
  have hpk : p.1 = k := by simpa using List.find?_some hp
  obtain ⟨a, b⟩ := p
  simp only at hpk hpv
  subst hpk; subst hpv
  exact hpm

theorem NodupKeys.perm {m1 m2 : StringMap} (hp : m1.Perm m2) (h1 : NodupKeys m1) :
    NodupKeys m2 := by
  unfold NodupKeys mapKeys at *
  exact ((hp.map (·.1)).nodup_iff).mp h1

theorem lookup?_perm {m1 m2 : StringMap} (hp : m1.Perm m2) (h1 : NodupKeys m1)
    (k : String) : lookup? m1 k = lookup? m2 k := by
  cases hv : lookup? m1 k with
  | none =>
    have hk := (lookup?_eq_none_iff m1 k).mp hv
    have : k ∉ mapKeys m2 := fun hk2 => hk ((hp.map (·.1)).mem_iff.mpr hk2)
    exact ((lookup?_eq_none_iff m2 k).mpr this).symm
  | some v =>
    have := mem_of_lookup?_eq_some hv
    exact (lookup?_eq_some_of_mem (h1.perm hp) (hp.mem_iff.mp this)).symm

/-! ## Sorting lemmas -/

theorem sortStrings_perm (l : List String) : (sortStrings l).Perm l :=
  List.perm_insertionSort _ l

theorem sortStrings_eq_of_perm {l1 l2 : List String} (h : l1.Perm l2) :
    sortStrings l1 = sortStrings l2 :=
  List.eq_of_perm_of_sorted
    ((List.perm_insertionSort _ l1).trans (h.trans (List.perm_insertionSort _ l2).symm))
    (List.sorted_insertionSort _ l1)
    (List.sorted_insertionSort _ l2)

theorem sortStrings_length (l : List String) : (sortStrings l).length = l.length :=
  (sortStrings_perm l).length_eq

/-! ## KeyMap: determinism and pool independence -/

theorem writeEntries_congr {m1 m2 : StringMap}
    (h : ∀ k, lookupD m1 k = lookupD m2 k) :
    ∀ ks : List String, writeEntries m1 ks = writeEntries m2 ks
  | [] => rfl
  | [k] => by simp [writeEntries, h k]
  | k :: k2 :: rest => by
    show k ++ String.singleton nameSplitter ++ lookupD m1 k ++ String.singleton pairSplitter ++
        writeEntries m1 (k2 :: rest) =
      k ++ String.singleton nameSplitter ++ lookupD m2 k ++ String.singleton pairSplitter ++
        writeEntries m2 (k2 :: rest)
    rw [h k, writeEntries_congr h (k2 :: rest)]

/-- `KeyMap` is invariant under reordering of the tag map. -/
theorem keyMap_perm {m1 m2 : StringMap} (hp : m1.Perm m2) (h1 : NodupKeys m1)
    (pfx : String) : KeyMap pfx m1 = KeyMap pfx m2 := by
  have hkeys : sortStrings (mapKeys m1) = sortStrings (mapKeys m2) := by
    apply sortStrings_eq_of_perm
    unfold mapKeys
    exact hp.map (·.1)
  have hlen : m1.length = m2.length := hp.length_eq
  have hlook : ∀ k, lookupD m1 k = lookupD m2 k := fun k => by
    unfold lookupD
    rw [lookup?_perm hp h1 k]
  show keyMapWith [] "" pfx m1 = keyMapWith [] "" pfx m2
  unfold keyMapWith
  simp only [List.nil_append]
  rw [hkeys, hlen, writeEntries_congr hlook]

/-- Whatever a well-formed pool hands out is empty. -/
theorem dbGet_of_wf {α : Type} {pool : List α} {fresh : α}
    (h : ∀ x ∈ pool, x = fresh) :
    (dbGet pool fresh).1 = fresh ∧ ∀ x ∈ (dbGet pool fresh).2, x = fresh := by
  cases pool with
  | nil => exact ⟨rfl, by intro x hx; cases hx⟩
  | cons y rest =>
    refine ⟨h y (List.mem_cons_self _ _), fun x hx => h x (List.mem_cons_of_mem y hx)⟩

theorem dbPut_of_wf {α : Type} {cap : Nat} {pool : List α} {fresh : α}
    (h : ∀ x ∈ pool, x = fresh) :
    ∀ x ∈ dbPut cap pool fresh, x = fresh := by
  intro x hx
  unfold dbPut at hx
  split at hx
  · rcases List.mem_append.mp hx with hx | hx
    · exact h x hx
    · simpa using hx
  · exact h x hx

/-- A `KeyMap` call on a well-formed pool computes exactly `KeyMap` (the
pooled scratch state does not leak into the result) and leaves the pool
well-formed (`release` resets both objects before pooling them). -/
theorem keyMapPool_of_wf {db : ItemDB} (hdb : db.WF) (pfx : String) (m : StringMap) :
    (keyMapPool db pfx m).1 = KeyMap pfx m ∧ ((keyMapPool db pfx m).2).WF := by
  obtain ⟨hb, hs⟩ := hdb
  obtain ⟨hs1, hs2⟩ := dbGet_of_wf hs
  obtain ⟨hb1, hb2⟩ := dbGet_of_wf hb
  constructor
  · show keyMapWith (dbGet db.strs []).1 (dbGet db.bufs "").1 pfx m = KeyMap pfx m
    rw [hs1, hb1]
    rfl
  · exact ⟨dbPut_of_wf hb2, dbPut_of_wf hs2⟩

/-! ## KeyMap: injectivity on the expected alphabet -/

theorem str_eq_empty_iff (s : String) : s = "" ↔ s.data = [] := by
  constructor
  · intro h; rw [h]
  · intro h; exact congrArg String.mk h

theorem singleton_data (c : Char) : (String.singleton c).data = [c] := rfl

theorem pairsChars_one (kv : Chars × Chars) :
    pairsChars [kv] = kv.1 ++ nameSplitter :: kv.2 := rfl

theorem pairsChars_two (kv kv2 : Chars × Chars) (rest : List (Chars × Chars)) :
    pairsChars (kv :: kv2 :: rest) =
      kv.1 ++ nameSplitter :: (kv.2 ++ pairSplitter :: pairsChars (kv2 :: rest)) := rfl

/-- Splitting at a separator character that occurs in neither left part is
unambiguous. -/
theorem split_at_sep {α : Type} {c : α} {a : List α} :
    ∀ {b x y : List α}, c ∉ a → c ∉ b → a ++ c :: x = b ++ c :: y → a = b ∧ x = y := by
  induction a with
  | nil =>
    intro b x y _ hb h
    cases b with
    | nil => simpa using h
    | cons d b' =>
      rw [List.nil_append, List.cons_append] at h
      obtain ⟨hcd, -⟩ := List.cons.inj h
      subst hcd
      exact absurd (List.mem_cons_self _ _) hb
  | cons d a' ih =>
    intro b x y ha hb h
    cases b with
    | nil =>
      rw [List.cons_append, List.nil_append] at h
      obtain ⟨hdc, -⟩ := List.cons.inj h
      subst hdc
      exact absurd (List.mem_cons_self _ _) ha
    | cons d' b' =>
      rw [List.cons_append, List.cons_append] at h
      obtain ⟨hdd, htail⟩ := List.cons.inj h
      obtain ⟨ha', hxy⟩ := ih (fun hc => ha (List.mem_cons_of_mem _ hc))
        (fun hc => hb (List.mem_cons_of_mem _ hc)) htail
      exact ⟨by rw [hdd, ha'], hxy⟩

theorem mem_pairsChars {c : Char} :
    ∀ {l : List (Chars × Chars)}, c ∈ pairsChars l →
      c = nameSplitter ∨ c = pairSplitter ∨ ∃ kv ∈ l, c ∈ kv.1 ∨ c ∈ kv.2 := by
  intro l
  induction l with
  | nil => intro h; cases h
  | cons kv rest ih =>
    cases rest with
    | nil =>
      intro h
      rw [pairsChars_one] at h
      rcases List.mem_append.mp h with h | h
      · exact Or.inr (Or.inr ⟨kv, List.mem_cons_self _ _, Or.inl h⟩)
      · rcases List.mem_cons.mp h with h | h
        · exact Or.inl h
        · exact Or.inr (Or.inr ⟨kv, List.mem_cons_self _ _, Or.inr h⟩)
    | cons kv2 rest' =>
      intro h
      rw [pairsChars_two] at h
      rcases List.mem_append.mp h with h | h
      · exact Or.inr (Or.inr ⟨kv, List.mem_cons_self _ _, Or.inl h⟩)
      · rcases List.mem_cons.mp h with h | h
        · exact Or.inl h
        · rcases List.mem_append.mp h with h | h
          · exact Or.inr (Or.inr ⟨kv, List.mem_cons_self _ _, Or.inr h⟩)
          · rcases List.mem_cons.mp h with h | h
            · exact Or.inr (Or.inl h)
            · rcases ih h with h | h | ⟨kv', hkv', hc⟩
              · exact Or.inl h
              · exact Or.inr (Or.inl h)
              · exact Or.inr (Or.inr ⟨kv', List.mem_cons_of_mem _ hkv', hc⟩)

theorem plus_not_mem_pairsChars {l : List (Chars × Chars)} (hc : CleanPairs l) :
    prefixSplitter ∉ pairsChars l := by
  intro h
  rcases mem_pairsChars h with h | h | ⟨kv, hkv, hmem⟩
  · exact absurd h (by decide)
  · exact absurd h (by decide)
  · rcases hmem with hmem | hmem
    · exact ((hc kv hkv).1 _ hmem).2.2 rfl
    · exact ((hc kv hkv).2 _ hmem).2.2 rfl

theorem nameSplitter_mem_pairsChars (kv : Chars × Chars) (t : List (Chars × Chars)) :
    nameSplitter ∈ pairsChars (kv :: t) := by
  cases t with
  | nil =>
    rw [pairsChars_one]
    exact List.mem_append.mpr (Or.inr (List.mem_cons_self _ _))
  | cons kv2 t2 =>
    rw [pairsChars_two]
    exact List.mem_append.mpr (Or.inr (List.mem_cons_self _ _))

theorem pairsChars_inj :
    ∀ {l1 l2 : List (Chars × Chars)}, CleanPairs l1 → CleanPairs l2 →
      pairsChars l1 = pairsChars l2 → l1 = l2 := by
  intro l1
  induction l1 with
  | nil =>
    intro l2 _ _ h
    cases l2 with
    | nil => rfl
    | cons kv t =>
      have hmem := nameSplitter_mem_pairsChars kv t
      rw [← h] at hmem
      cases hmem
  | cons kv1 t1 ih =>
    intro l2 h1 h2 h
    cases l2 with
    | nil =>
      have hmem := nameSplitter_mem_pairsChars kv1 t1
      rw [h] at hmem
      cases hmem
    | cons kv2 t2 =>
      have hk1 : nameSplitter ∉ kv1.1 :=
        fun hc => ((h1 kv1 (List.mem_cons_self _ _)).1 _ hc).1 rfl
      have hk2 : nameSplitter ∉ kv2.1 :=
        fun hc => ((h2 kv2 (List.mem_cons_self _ _)).1 _ hc).1 rfl
      have hv1 : pairSplitter ∉ kv1.2 :=
        fun hc => ((h1 kv1 (List.mem_cons_self _ _)).2 _ hc).2.1 rfl
      have hv2 : pairSplitter ∉ kv2.2 :=
        fun hc => ((h2 kv2 (List.mem_cons_self _ _)).2 _ hc).2.1 rfl
      have hkv : kv1.1 = kv2.1 → kv1.2 = kv2.2 → kv1 = kv2 := by
        intro ha hb
        obtain ⟨x1, y1⟩ := kv1
        obtain ⟨x2, y2⟩ := kv2
        simp only at ha hb
        rw [ha, hb]
      cases t1 with
      | nil =>
        cases t2 with
        | nil =>
          rw [pairsChars_one, pairsChars_one] at h
          obtain ⟨hkeq, hveq⟩ := split_at_sep hk1 hk2 h
          rw [hkv hkeq hveq]
        | cons kv2' t2' =>
          rw [pairsChars_one, pairsChars_two] at h
          obtain ⟨hkeq, hveq⟩ := split_at_sep hk1 hk2 h
          have hmem : pairSplitter ∈ kv2.2 ++ pairSplitter :: pairsChars (kv2' :: t2') :=
            List.mem_append.mpr (Or.inr (List.mem_cons_self _ _))
          rw [← hveq] at hmem
          exact absurd hmem hv1
      | cons kv1' t1' =>
        cases t2 with
        | nil =>
          rw [pairsChars_two, pairsChars_one] at h
          obtain ⟨hkeq, hveq⟩ := split_at_sep hk1 hk2 h
          have hmem : pairSplitter ∈ kv1.2 ++ pairSplitter :: pairsChars (kv1' :: t1') :=
            List.mem_append.mpr (Or.inr (List.mem_cons_self _ _))
          rw [hveq] at hmem
          exact absurd hmem hv2
        | cons kv2' t2' =>
          rw [pairsChars_two, pairsChars_two] at h
          obtain ⟨hkeq, hrest⟩ := split_at_sep hk1 hk2 h
          obtain ⟨hveq, hpeq⟩ := split_at_sep hv1 hv2 hrest
          have htail := ih (fun kv hkv => h1 kv (List.mem_cons_of_mem _ hkv))
            (fun kv hkv => h2 kv (List.mem_cons_of_mem _ hkv)) hpeq
          rw [hkv hkeq hveq, htail]

theorem keyChars_nil (l : List (Chars × Chars)) : keyChars [] l = pairsChars l := rfl

theorem keyChars_ne_nil {p : Chars} (hp : p ≠ []) (l : List (Chars × Chars)) :
    keyChars p l = p ++ prefixSplitter :: pairsChars l := by
  cases p with
  | nil => exact absurd rfl hp
  | cons d p' => rfl

theorem keyChars_inj {p1 p2 : Chars} {l1 l2 : List (Chars × Chars)}
    (hc1 : CleanPairs l1) (hc2 : CleanPairs l2)
    (h : keyChars p1 l1 = keyChars p2 l2) : p1 = p2 ∧ l1 = l2 := by
  have hplus1 : prefixSplitter ∉ pairsChars l1 := plus_not_mem_pairsChars hc1
  have hplus2 : prefixSplitter ∉ pairsChars l2 := plus_not_mem_pairsChars hc2
  cases p1 with
  | nil =>
    cases p2 with
    | nil =>
      rw [keyChars_nil, keyChars_nil] at h
      exact ⟨rfl, pairsChars_inj hc1 hc2 h⟩
    | cons e p2' =>
      rw [keyChars_nil, keyChars_ne_nil (List.cons_ne_nil e p2')] at h
      have hmem : prefixSplitter ∈ (e :: p2') ++ prefixSplitter :: pairsChars l2 :=
        List.mem_append.mpr (Or.inr (List.mem_cons_self _ _))
      rw [← h] at hmem
      exact absurd hmem hplus1
  | cons d p1' =>
    cases p2 with
    | nil =>
      rw [keyChars_nil, keyChars_ne_nil (List.cons_ne_nil d p1')] at h
      have hmem : prefixSplitter ∈ (d :: p1') ++ prefixSplitter :: pairsChars l1 :=
        List.mem_append.mpr (Or.inr (List.mem_cons_self _ _))
      rw [h] at hmem
      exact absurd hmem hplus2
    | cons e p2' =>
      rw [keyChars_ne_nil (List.cons_ne_nil d p1'), keyChars_ne_nil (List.cons_ne_nil e p2')] at h
      have h' := congrArg List.reverse h
      have h'' : (pairsChars l1).reverse ++ prefixSplitter :: (d :: p1').reverse =
          (pairsChars l2).reverse ++ prefixSplitter :: (e :: p2').reverse := by
        simpa [List.reverse_append, List.append_assoc] using h'
      obtain ⟨hrev, hprev⟩ := split_at_sep
        (fun hc => hplus1 (List.mem_reverse.mp hc))
        (fun hc => hplus2 (List.mem_reverse.mp hc)) h''
      have hP : pairsChars l1 = pairsChars l2 := List.reverse_injective hrev
      have hpeq : (d :: p1') = (e :: p2') := List.reverse_injective hprev
      exact ⟨hpeq, pairsChars_inj hc1 hc2 hP⟩

/-! ## KeyMap: character-level bridge -/

theorem writeEntries_data (m : StringMap) :
    ∀ ks : List String, (writeEntries m ks).data =
      pairsChars (ks.map (fun k => (k.data, (lookupD m k).data)))
  | [] => rfl
  | [k] => by
    rw [writeEntries, List.map_cons, List.map_nil, pairsChars_one]
    simp [String.data_append, singleton_data]
  | k :: k2 :: rest => by
    have ih := writeEntries_data m (k2 :: rest)
    rw [List.map_cons] at ih
    show (k ++ String.singleton nameSplitter ++ lookupD m k ++ String.singleton pairSplitter ++
        writeEntries m (k2 :: rest)).data = _
    rw [List.map_cons, List.map_cons, pairsChars_two]
    simp [String.data_append, singleton_data, ih]

theorem keyMap_data (pfx : String) (m : StringMap) :
    (KeyMap pfx m).data = keyChars pfx.data (entriesOf m) := by
  show (keyMapWith [] "" pfx m).data = _
  unfold keyMapWith
  simp only [List.nil_append]
  have htake : (sortStrings (mapKeys m)).take m.length = sortStrings (mapKeys m) := by
    have hl : (sortStrings (mapKeys m)).length = m.length := by
      rw [sortStrings_length]
      exact List.length_map m (·.1)
    rw [← hl, List.take_length]
  rw [htake]
  by_cases hp : pfx = ""
  · subst hp
    rw [if_neg (by intro hh; exact hh rfl)]
    have hdata : (("" : String) ++ writeEntries m (sortStrings (mapKeys m))).data =
        (writeEntries m (sortStrings (mapKeys m))).data := by
      rw [String.data_append]
      rfl
    rw [hdata, writeEntries_data]
    rfl
  · rw [if_pos hp]
    have hd : pfx.data ≠ [] := fun h => hp ((str_eq_empty_iff pfx).mpr h)
    rw [keyChars_ne_nil hd]
    simp [String.data_append, singleton_data, writeEntries_data, List.append_assoc, entriesOf]

/-! ## KeyMap: canonical form of a map -/

theorem mapKeys_map_lookup (m : StringMap) (hm : NodupKeys m) :
    (mapKeys m).map (fun k => (k, lookupD m k)) = m := by
  induction m with
  | nil => rfl
  | cons p rest ih =>
    have hm' : (p.1 :: mapKeys rest).Nodup := by
      rw [← mapKeys_cons]; exact hm
    obtain ⟨hk, hrest⟩ := List.nodup_cons.mp hm'
    rw [mapKeys_cons, List.map_cons]
    have hhead : lookupD (p :: rest) p.1 = p.2 := by
      simp [lookupD, lookup?, List.find?_cons]
    have hstep : ∀ k ∈ mapKeys rest,
        (fun k => (k, lookupD (p :: rest) k)) k = (fun k => (k, lookupD rest k)) k := by
      intro k hkm
      have hne : (p.1 == k) = false := by
        simp only [beq_eq_false_iff_ne, ne_eq]
        intro he
        exact hk (he ▸ hkm)
      simp [lookupD, lookup?, List.find?_cons, hne]
    rw [List.map_congr_left hstep, ih hrest, hhead]

theorem perm_canonical (m : StringMap) (hm : NodupKeys m) :
    m.Perm ((sortStrings (mapKeys m)).map (fun k => (k, lookupD m k))) := by
  have h1 := ((sortStrings_perm (mapKeys m)).symm).map (fun k => (k, lookupD m k))
  rw [mapKeys_map_lookup m hm] at h1
  exact h1

theorem entriesOf_eq (m : StringMap) :
    entriesOf m = ((sortStrings (mapKeys m)).map (fun k => (k, lookupD m k))).map
      (fun kv => (kv.1.data, kv.2.data)) := by
  unfold entriesOf
  rw [List.map_map]
  rfl

theorem dataPair_injective :
    Function.Injective (fun kv : String × String => (kv.1.data, kv.2.data)) := by
  intro a b h
  obtain ⟨a1, a2⟩ := a
  obtain ⟨b1, b2⟩ := b
  simp only [Prod.mk.injEq] at h
  rw [show a1 = b1 from congrArg String.mk h.1, show a2 = b2 from congrArg String.mk h.2]

theorem entriesOf_clean {m : StringMap} (hc : CleanMap m) : CleanPairs (entriesOf m) := by
  intro kv hkv
  unfold entriesOf at hkv
  obtain ⟨k, hk, hkveq⟩ := List.mem_map.mp hkv
  subst hkveq
  have hkm : k ∈ mapKeys m := (sortStrings_perm (mapKeys m)).mem_iff.mp hk
  obtain ⟨p, hp, hpk⟩ := List.mem_map.mp hkm
  constructor
  · exact hpk ▸ (hc p hp).1
  · cases hv : lookup? m k with
    | none => exact absurd hkm ((lookup?_eq_none_iff m k).mp hv)
    | some v =>
      have hmem := mem_of_lookup?_eq_some hv
      have hclean := (hc _ hmem).2
      simpa [lookupD, hv] using hclean

/-- `KeyMap` is injective on the expected alphabet: equal keys mean equal
prefix and equal tag map (up to reordering). -/
theorem keyMap_inj {p1 p2 : String} {m1 m2 : StringMap}
    (h1 : NodupKeys m1) (h2 : NodupKeys m2) (hc1 : CleanMap m1) (hc2 : CleanMap m2)
    (h : KeyMap p1 m1 = KeyMap p2 m2) : p1 = p2 ∧ m1.Perm m2 := by
  have hd := congrArg String.data h
  rw [keyMap_data, keyMap_data] at hd
  obtain ⟨hpfx, hent⟩ := keyChars_inj (entriesOf_clean hc1) (entriesOf_clean hc2) hd
  refine ⟨congrArg String.mk hpfx, ?_⟩
  rw [entriesOf_eq, entriesOf_eq] at hent
  have hcanon := List.map_injective_iff.mpr dataPair_injective hent
  have h2' : ((sortStrings (mapKeys m1)).map (fun k => (k, lookupD m1 k))).Perm m2 := by
    rw [hcanon]
    exact (perm_canonical m2 h2).symm
  exact (perm_canonical m1 h1).trans h2'

/-! ## C3, C4 -/

/-- C4: `KeyMap` does not collide on the expected alphabet.  For tag maps
whose keys and values avoid the three reserved separator characters
(`=`, `,`, `+`), any two (prefix, tag-set) pairs that differ — different
prefix, or tag maps that are not rearrangements of each other — produce
different keys. -/
theorem keymap_injective_on_clean (p1 p2 : String) (m1 m2 : StringMap)
    (h1 : NodupKeys m1) (h2 : NodupKeys m2) (hc1 : CleanMap m1) (hc2 : CleanMap m2)
    (hne : ¬(p1 = p2 ∧ m1.Perm m2)) : KeyMap p1 m1 ≠ KeyMap p2 m2 :=
  fun h => hne (keyMap_inj h1 h2 hc1 hc2 h)

/-- Witness for `keymap_injective_on_clean` at a concrete input. -/
theorem keymap_injective_on_clean_witness :
    CleanMap [("a", "1")] ∧ KeyMap "x" [("a", "1")] ≠ KeyMap "x" [] :=
  ⟨by decide,
    keymap_injective_on_clean "x" "x" [("a", "1")] [] (by decide) (by decide) (by decide)
      (by decide) (by decide)⟩

/-- C3: `KeyMap` is a pure, deterministic function of the (prefix, tag set)
pair: invariant under tag reordering, independent of the pooled scratch
state (which `release` always resets before reuse), and it keeps the pool
reset; in particular `KeyMap(p, {"b":"2","a":"1"})` equals
`KeyMap(p, {"a":"1","b":"2"})` and differs from `KeyMap(p, {"a":"1"})`. -/
theorem keymap_pure_deterministic (pfx : String) (m1 m2 : StringMap) (db : ItemDB)
    (hperm : m1.Perm m2) (hnd : NodupKeys m1) (hdb : db.WF) :
    KeyMap pfx m1 = KeyMap pfx m2 ∧
    (keyMapPool db pfx m1).1 = KeyMap pfx m1 ∧
    ((keyMapPool db pfx m1).2).WF ∧
    KeyMap pfx [("b", "2"), ("a", "1")] = KeyMap pfx [("a", "1"), ("b", "2")] ∧
    KeyMap pfx [("b", "2"), ("a", "1")] ≠ KeyMap pfx [("a", "1")] := by
  obtain ⟨hpool1, hpool2⟩ := keyMapPool_of_wf hdb pfx m1
  refine ⟨keyMap_perm hperm hnd pfx, hpool1, hpool2, ?_, ?_⟩
  · exact keyMap_perm (by decide) (by decide) pfx
  · intro h
    obtain ⟨-, hperm'⟩ := keyMap_inj (by decide) (by decide) (by decide) (by decide) h
    exact absurd hperm'.length_eq (by decide)

/-- Witness for `keymap_pure_deterministic` at a concrete input. -/
theorem keymap_pure_deterministic_witness :
    NodupKeys [("k", "v")] ∧ KeyMap "p" [("k", "v")] = KeyMap "p" [("k", "v")] :=
  ⟨by decide,
    (keymap_pure_deterministic "p" [("k", "v")] [("k", "v")] ⟨[], []⟩ (List.Perm.refl _)
      (by decide) (by decide)).1⟩

/-! ## Flush pass lemmas (C2) -/

theorem counter_report_no_flush (c : Counter) (name : String) (tags : StringMap) :
    ((c.report name tags).2).countP Emission.isFlush = 0 := by
  unfold Counter.report
  by_cases h : (c.value).1 = 0 <;> simp [h, Emission.isFlush]

theorem gauge_report_no_flush (g : Gauge) (name : String) (tags : StringMap) :
    ((g.report name tags).2).countP Emission.isFlush = 0 := by
  unfold Gauge.report
  by_cases h : g.updated = 1 <;> simp [h, Emission.isFlush]

theorem counterFold_no_flush (sd : ScopeData) :
    ∀ (l : List (String × Counter)) (a : List (String × Counter)) (e : List Emission),
      ((l.foldl (counterStep sd) (a, e)).2).countP Emission.isFlush =
        e.countP Emission.isFlush := by
  intro l
  induction l with
  | nil => intro a e; rfl
  | cons nc rest ih =>
    intro a e
    have hstep : counterStep sd (a, e) nc =
        (a ++ [(nc.1, ((nc.2).report (fullyQualifiedName sd nc.1) sd.tags).1)],
          e ++ ((nc.2).report (fullyQualifiedName sd nc.1) sd.tags).2) := rfl
    rw [List.foldl_cons, hstep, ih, List.countP_append, counter_report_no_flush,
      Nat.add_zero]

theorem gaugeFold_no_flush (sd : ScopeData) :
    ∀ (l : List (String × Gauge)) (a : List (String × Gauge)) (e : List Emission),
      ((l.foldl (gaugeStep sd) (a, e)).2).countP Emission.isFlush =
        e.countP Emission.isFlush := by
  intro l
  induction l with
  | nil => intro a e; rfl
  | cons ng rest ih =>
    intro a e
    have hstep : gaugeStep sd (a, e) ng =
        (a ++ [(ng.1, ((ng.2).report (fullyQualifiedName sd ng.1) sd.tags).1)],
          e ++ ((ng.2).report (fullyQualifiedName sd ng.1) sd.tags).2) := rfl
    rw [List.foldl_cons, hstep, ih, List.countP_append, gauge_report_no_flush,
      Nat.add_zero]

/-- Every single `scope.report` ends in exactly one `Flush()`. -/
theorem scopeReport_flush_count (sd : ScopeData) :
    ((scopeReport sd).2).countP Emission.isFlush = 1 := by
  show ((sd.counters.foldl (counterStep sd) ([], [])).2 ++
      (sd.gauges.foldl (gaugeStep sd) ([], [])).2 ++ [Emission.flush]).countP
      Emission.isFlush = 1
  rw [List.countP_append, List.countP_append, counterFold_no_flush, gaugeFold_no_flush]
  decide

theorem registryFold_flush_count :
    ∀ (entries : List (String × Nat)) (scopes : List ScopeData) (e : List Emission),
      (∀ p ∈ entries, p.2 < scopes.length) →
      ((entries.foldl registryStep (scopes, e)).2).countP Emission.isFlush =
        e.countP Emission.isFlush + entries.length := by
  intro entries
  induction entries with
  | nil => intro scopes e _; simp
  | cons p rest ih =>
    intro scopes e hval
    have hp := hval p (List.mem_cons_self _ _)
    have hsome : scopes[p.2]? = some scopes[p.2] := List.getElem?_eq_getElem hp
    have hstep : registryStep (scopes, e) p =
        (scopes.set p.2 (scopeReport scopes[p.2]).1, e ++ (scopeReport scopes[p.2]).2) := by
      unfold registryStep
      rw [hsome]
    rw [List.foldl_cons, hstep, ih _ _ ?_]
    · rw [List.countP_append, scopeReport_flush_count, List.length_cons]
      omega
    · intro q hq
      rw [List.length_set]
      exact hval q (List.mem_cons_of_mem _ hq)

/-- C2 counterexample: a flush pass does not call `Flush()` exactly once —
with two registered scopes (a root and one `SubScope`), one pass performs
two `Flush()` calls, one after each scope's metrics. -/
theorem flush_twice_with_two_scopes :
    ((reportLoopRun (SubScope (newRootScope "" [] "" true) 0 "sub").1).2).countP
        Emission.isFlush = 2 ∧
    ((reportLoopRun (SubScope (newRootScope "" [] "" true) 0 "sub").1).2).countP
        Emission.isFlush ≠ 1 := by decide

/-- C2 (amended): every flush pass (on an open scope tree with a reporter
installed) invokes the reporter's `Flush()` exactly once per registered
scope — after that scope's counter deltas and dirty gauges are forwarded —
so a pass over `n` registered scopes performs `n` `Flush()` calls, not one. -/
theorem flush_once_per_registered_scope (st : AgentState)
    (hrep : st.hasReporter = true) (hopen : st.closed = false)
    (hval : ∀ p ∈ st.registry, p.2 < st.scopes.length) :
    ((reportLoopRun st).2).countP Emission.isFlush = st.registry.length := by
  unfold reportLoopRun
  rw [if_neg (by simp [hopen])]
  unfold reportRegistry
  rw [if_pos hrep]
  show ((st.registry.foldl registryStep (st.scopes, [])).2).countP Emission.isFlush = _
  rw [registryFold_flush_count st.registry st.scopes [] hval]
  simp

/-- Witness for `flush_once_per_registered_scope` at a concrete input. -/
theorem flush_once_per_registered_scope_witness :
    (SubScope (newRootScope "" [] "" true) 0 "sub").1.hasReporter = true ∧
    ((reportLoopRun (SubScope (newRootScope "" [] "" true) 0 "sub").1).2).countP
        Emission.isFlush = (SubScope (newRootScope "" [] "" true) 0 "sub").1.registry.length :=
  ⟨by decide, flush_once_per_registered_scope _ (by decide) (by decide) (by decide)⟩

/-! ## Close and shutdown (C5, C10) -/

theorem reportRegistry_closed (st : AgentState) : (reportRegistry st).1.closed = st.closed := by
  unfold reportRegistry
  split <;> rfl

theorem reportRegistry_quitClosed (st : AgentState) :
    (reportRegistry st).1.quitClosed = st.quitClosed := by
  unfold reportRegistry
  split <;> rfl

/-- C10: once `Close()` has returned (without panicking), the state is
closed, and every subsequent timer tick (`reportLoopRun`) and every
subsequent manual `Report()` call returns before touching the registry: the
state is unchanged and no `ReportCounter`, `ReportGauge` or `Flush` call is
emitted. -/
theorem no_reporting_after_close (st : AgentState) (r : AgentState × List Emission)
    (h : Close st = some r) :
    r.1.closed = true ∧ reportLoopRun r.1 = (r.1, []) ∧ Report r.1 = (r.1, []) := by
  have hc : r.1.closed = true := by
    unfold Close at h
    by_cases hcl : st.closed = true
    · rw [if_pos hcl] at h
      obtain rfl := Option.some.inj h
      exact hcl
    · rw [if_neg hcl] at h
      unfold closeQuit at h
      by_cases hq : st.quitClosed = true
      · simp [hq] at h
      · simp only [hq] at h
        simp only [Bool.false_eq_true, if_neg, ite_false] at h
        obtain rfl := Option.some.inj h
        rw [reportRegistry_closed]
  refine ⟨hc, ?_, ?_⟩ <;> simp [reportLoopRun, Report, hc]

/-- Witness for `no_reporting_after_close` at a concrete input. -/
theorem no_reporting_after_close_witness :
    Close (newRootScope "" [] "" true) =
      some (⟨true, [⟨"", ".", [], [], []⟩], [("", 0)], true, true⟩, [Emission.flush]) ∧
    reportLoopRun ⟨true, [⟨"", ".", [], [], []⟩], [("", 0)], true, true⟩ =
      (⟨true, [⟨"", ".", [], [], []⟩], [("", 0)], true, true⟩, []) :=
  ⟨by decide,
    (no_reporting_after_close (newRootScope "" [] "" true)
      (⟨true, [⟨"", ".", [], [], []⟩], [("", 0)], true, true⟩, [Emission.flush])
      (by decide)).2.1⟩

/-- C5: `Close()` on a root scope is idempotent with exactly one terminal
flush pass.  Under the invariant that the quit channel has been closed iff
the scope is closed (true initially and preserved), `Close` never panics;
the first call marks the scope closed, closes the quit channel (stopping
the timer loop) and synchronously emits exactly the emissions of one flush
pass; a second `Close` returns (with nil error) leaving the state unchanged
and emitting nothing. -/
theorem close_idempotent (st : AgentState) (hq : st.quitClosed = st.closed) :
    let r := (Close st).getD (st, [])
    Close st = some r ∧ r.1.closed = true ∧ r.1.quitClosed = true ∧
    Close r.1 = some (r.1, []) ∧
    (st.closed = false →
      r.2 = (reportRegistry { st with closed := true, quitClosed := true }).2) ∧
    (st.closed = true → r.2 = []) := by
  intro r
  by_cases hcl : st.closed = true
  · have hr : Close st = some (st, []) := by
      unfold Close
      rw [if_pos hcl]
    have hr' : r = (st, []) := by rw [show r = (Close st).getD (st, []) from rfl, hr]; rfl
    rw [hr', hr]
    refine ⟨rfl, hcl, by rw [hq]; exact hcl, rfl, ?_, fun _ => rfl⟩
    intro hfalse
    rw [hcl] at hfalse
    cases hfalse
  · have hcl' : st.closed = false := by
      cases h : st.closed
      · rfl
      · exact absurd h hcl
    have hq' : st.quitClosed = false := by rw [hq, hcl']
    have hclose : Close st =
        some (reportRegistry { st with closed := true, quitClosed := true }) := by
      unfold Close closeQuit
      rw [if_neg hcl]
      simp only [hq']
      rfl
    have hr' : r = reportRegistry { st with closed := true, quitClosed := true } := by
      rw [show r = (Close st).getD (st, []) from rfl, hclose]
      rfl
    have hrc : r.1.closed = true := by rw [hr', reportRegistry_closed]
    have hrq : r.1.quitClosed = true := by rw [hr', reportRegistry_quitClosed]
    refine ⟨by rw [hclose, hr'], hrc, hrq, ?_, fun _ => by rw [hr'], ?_⟩
    · unfold Close
      rw [if_pos hrc]
    · intro htrue
      rw [hcl'] at htrue
      cases htrue

/-- Witness for `close_idempotent` at a concrete input. -/
theorem close_idempotent_witness :
    (newRootScope "" [] "" true).quitClosed = (newRootScope "" [] "" true).closed ∧
    Close ((Close (newRootScope "" [] "" true)).getD (newRootScope "" [] "" true, [])).1 =
      some (((Close (newRootScope "" [] "" true)).getD (newRootScope "" [] "" true, [])).1,
        []) :=
  ⟨by decide, (close_idempotent (newRootScope "" [] "" true) (by decide)).2.2.2.1⟩

/-! ## Registry lookup lemmas (C6) -/

theorem lookupReg_eq_none_iff (reg : List (String × Nat)) (k : String) :
    lookupReg reg k = none ↔ k ∉ reg.map (·.1) := by
  unfold lookupReg
  rw [Option.map_eq_none', List.find?_eq_none]
  constructor
  · intro h hk
    obtain ⟨p, hp, hpk⟩ := List.mem_map.mp hk
    have := h p hp
    simp [hpk] at this
  · intro h p hp
    simp only [beq_iff_eq]
    intro hpk
    exact h (List.mem_map.mpr ⟨p, hp, hpk⟩)

theorem lookupReg_eq_some_of_mem {reg : List (String × Nat)} {k : String} {id : Nat}
    (hnd : (reg.map (·.1)).Nodup) (h : (k, id) ∈ reg) : lookupReg reg k = some id := by
  induction reg with
  | nil => cases h
  | cons p rest ih =>
    rw [List.map_cons] at hnd
    obtain ⟨hk, hrest⟩ := List.nodup_cons.mp hnd
    rcases List.mem_cons.mp h with h | h
    · subst h
      simp [lookupReg, List.find?_cons]
    · have hne : p.1 ≠ k := by
        intro he
        exact hk (by simpa [he] using List.mem_map_of_mem (·.1) h)
      have := ih hrest h
      simpa [lookupReg, List.find?_cons, hne] using this

theorem mem_of_lookupReg_eq_some {reg : List (String × Nat)} {k : String} {id : Nat}
    (h : lookupReg reg k = some id) : (k, id) ∈ reg := by
  unfold lookupReg at h
  obtain ⟨p, hp, hpv⟩ := Option.map_eq_some'.mp h
  have hpm : p ∈ reg := List.mem_of_find?_eq_some hp
  have hpk : p.1 = k := by simpa using List.find?_some hp
  obtain ⟨a, b⟩ := p
  simp only at hpk hpv
  subst hpk; subst hpv
  exact hpm

/-! ## mergeRightTags lemmas (C6) -/

theorem mergeRightTags_nil_right (l : StringMap) : mergeRightTags l [] = l := by
  unfold mergeRightTags
  simp

theorem mergeRightTags_nodup {l r : StringMap} (hl : NodupKeys l) (hr : NodupKeys r) :
    NodupKeys (mergeRightTags l r) := by
  unfold mergeRightTags
  split
  · exact hl
  split
  · exact hr
  · unfold NodupKeys mapKeys at *
    rw [List.map_append]
    refine List.Nodup.append ?_ hr ?_
    · exact ((List.filter_sublist l).map (·.1)).nodup hl
    · intro k hk1 hk2
      obtain ⟨p, hp, hpk⟩ := List.mem_map.mp hk1
      have hpred := List.of_mem_filter hp
      have hnone : lookup? r p.1 = none := by
        cases hv : lookup? r p.1 with
        | none => rfl
        | some v => rw [hv] at hpred; cases hpred
      have := (lookup?_eq_none_iff r p.1).mp hnone
      exact this (by rw [hpk]; exact hk2)

theorem mergeRightTags_perm {l1 l2 r1 r2 : StringMap} (hl : l1.Perm l2) (hr : r1.Perm r2) :
    (mergeRightTags l1 r1).Perm (mergeRightTags l2 r2) := by
  unfold mergeRightTags
  by_cases h1 : r1 = []
  · have h2 : r2 = [] := by
      subst h1
      exact hr.nil_eq.symm
    rw [if_pos h1, if_pos h2]
    exact hl
  · have h2 : r2 ≠ [] := by
      intro he
      subst he
      exact h1 hr.symm.nil_eq.symm
    rw [if_neg h1, if_neg h2]
    by_cases h3 : l1 = []
    · have h4 : l2 = [] := by
        subst h3
        exact hl.nil_eq.symm
      rw [if_pos h3, if_pos h4]
      exact hr
    · have h4 : l2 ≠ [] := by
        intro he
        subst he
        exact h3 hl.symm.nil_eq.symm
      rw [if_neg h3, if_neg h4]
      refine List.Perm.append ?_ hr
      have hpred : ∀ p : String × String,
          ((lookup? r1 p.1).isNone : Bool) = ((lookup? r2 p.1).isNone : Bool) := by
        intro p
        by_cases hm : p.1 ∈ mapKeys r1
        · have hm2 : p.1 ∈ mapKeys r2 := by
            unfold mapKeys at *
            exact (hr.map (·.1)).mem_iff.mp hm
          have e1 : lookup? r1 p.1 ≠ none :=
            fun hnone => ((lookup?_eq_none_iff _ _).mp hnone) hm
          have e2 : lookup? r2 p.1 ≠ none :=
            fun hnone => ((lookup?_eq_none_iff _ _).mp hnone) hm2
          cases hv1 : lookup? r1 p.1 with
          | none => exact absurd hv1 e1
          | some v1 =>
            cases hv2 : lookup? r2 p.1 with
            | none => exact absurd hv2 e2
            | some v2 => rfl
        · have hm2 : p.1 ∉ mapKeys r2 := by
            intro hin
            unfold mapKeys at *
            exact hm ((hr.map (·.1)).mem_iff.mpr hin)
          rw [(lookup?_eq_none_iff r1 p.1).mpr hm, (lookup?_eq_none_iff r2 p.1).mpr hm2]
      have e1 : l1.filter (fun p => (lookup? r1 p.1).isNone) =
          l1.filter (fun p => (lookup? r2 p.1).isNone) :=
        List.filter_congr (fun x _ => hpred x)
      rw [e1]
      exact hl.filter _

/-! ## Scope derivation lemmas (C6) -/

theorem getScope_lt {st : AgentState} {sid : Nat} (h : sid < st.scopes.length) :
    getScope st sid = st.scopes[sid] := by
  unfold getScope
  exact List.getD_eq_getElem st.scopes defaultScopeData h

theorem getScope_subscope {st : AgentState} {sid0 : Nat} {pfx : String} {tags : StringMap}
    {sid : Nat} (h : sid < st.scopes.length) :
    getScope (subscope st sid0 pfx tags).1 sid = getScope st sid := by
  unfold subscope
  cases hfind : lookupReg st.registry
      (KeyMap pfx (mergeRightTags (getScope st sid0).tags tags)) with
  | some id =>
    simp only [hfind]
  | none =>
    simp only [hfind]
    unfold getScope
    exact List.getD_append _ _ _ _ h

theorem subscope_registered {st : AgentState} (hnd : (st.registry.map (·.1)).Nodup)
    (sid : Nat) (pfx : String) (tags : StringMap) :
    ((KeyMap pfx (mergeRightTags (getScope st sid).tags tags), (subscope st sid pfx tags).2) ∈
      (subscope st sid pfx tags).1.registry) ∧
    (((subscope st sid pfx tags).1.registry.map (·.1)).Nodup) := by
  unfold subscope
  cases hfind : lookupReg st.registry
      (KeyMap pfx (mergeRightTags (getScope st sid).tags tags)) with
  | some id =>
    simp only [hfind]
    exact ⟨mem_of_lookupReg_eq_some hfind, hnd⟩
  | none =>
    simp only [hfind]
    constructor
    · exact List.mem_append.mpr (Or.inr (List.mem_cons_self _ _))
    · show ((st.registry ++
          [(KeyMap pfx (mergeRightTags (getScope st sid).tags tags),
            st.scopes.length)]).map (·.1)).Nodup
      rw [List.map_append]
      refine List.Nodup.append hnd (List.nodup_singleton _) ?_
      intro k hk1 hk2
      rw [List.map_singleton, List.mem_singleton] at hk2
      subst hk2
      exact ((lookupReg_eq_none_iff _ _).mp hfind) hk1

theorem subscope_finds_registered {st : AgentState} {key : String} {id : Nat}
    (hnd : (st.registry.map (·.1)).Nodup) (hmem : (key, id) ∈ st.registry)
    (sid : Nat) (pfx : String) (tags : StringMap)
    (hkey : KeyMap pfx (mergeRightTags (getScope st sid).tags tags) = key) :
    subscope st sid pfx tags = (st, id) := by
  unfold subscope
  have hfind : lookupReg st.registry (KeyMap pfx (mergeRightTags (getScope st sid).tags tags)) =
      some id := by
    rw [hkey]
    exact lookupReg_eq_some_of_mem hnd hmem
  simp only [hfind]

theorem fullyQualifiedName_congr {sd1 sd2 : ScopeData} (hp : sd1.pfx = sd2.pfx)
    (hs : sd1.separator = sd2.separator) (name : String) :
    fullyQualifiedName sd1 name = fullyQualifiedName sd2 name := by
  unfold fullyQualifiedName
  rw [hp, hs]

/-- C6: scope derivation is idempotent and deduplicated through the shared
registry.  In a well-formed state, deriving twice with `Tagged` using equal
tag-map arguments from scopes with equal prefix and equal tag set returns
the same underlying scope object (the same arena index) and leaves the state
untouched the second time; the same holds for `SubScope` with the same name
(given equal separators, which all scopes of one tree share); and
`Tagged({})` returns the original scope itself without touching the state. -/
theorem scope_derivation_dedup (st : AgentState) (sid1 sid2 : Nat) (T T' : StringMap)
    (nm : String) (hWF : st.WF) (h1 : sid1 < st.scopes.length) (h2 : sid2 < st.scopes.length)
    (hpfx : (getScope st sid1).pfx = (getScope st sid2).pfx)
    (hsep : (getScope st sid1).separator = (getScope st sid2).separator)
    (htags : (getScope st sid1).tags.Perm (getScope st sid2).tags)
    (hT : T.Perm T') (hTn : NodupKeys T) :
    Tagged (Tagged st sid1 T).1 sid2 T' = ((Tagged st sid1 T).1, (Tagged st sid1 T).2) ∧
    SubScope (SubScope st sid1 nm).1 sid2 nm =
      ((SubScope st sid1 nm).1, (SubScope st sid1 nm).2) ∧
    Tagged st sid1 [] = (st, sid1) := by
  obtain ⟨hreg, hnd, hself, htagsnd⟩ := hWF
  have hnd1 : NodupKeys (getScope st sid1).tags := by
    rw [getScope_lt h1]
    exact htagsnd _ (List.getElem_mem h1)
  have hnd2 : NodupKeys (getScope st sid2).tags := by
    rw [getScope_lt h2]
    exact htagsnd _ (List.getElem_mem h2)
  have hT'n : NodupKeys T' := hTn.perm hT
  refine ⟨?_, ?_, ?_⟩
  · -- Tagged dedup
    obtain ⟨hmem, hnd'⟩ := subscope_registered hnd sid1 (getScope st sid1).pfx T
    have hget : getScope (subscope st sid1 (getScope st sid1).pfx T).1 sid2 =
        getScope st sid2 := getScope_subscope h2
    show subscope (subscope st sid1 (getScope st sid1).pfx T).1 sid2
        (getScope (subscope st sid1 (getScope st sid1).pfx T).1 sid2).pfx T' = _
    rw [hget]
    refine subscope_finds_registered hnd' hmem sid2 _ T' ?_
    rw [hget, ← hpfx]
    exact keyMap_perm (mergeRightTags_perm htags.symm hT.symm)
      (mergeRightTags_nodup hnd2 hT'n) _
  · -- SubScope dedup
    obtain ⟨hmem, hnd'⟩ :=
      subscope_registered hnd sid1 (fullyQualifiedName (getScope st sid1) nm) []
    have hget : getScope
        (subscope st sid1 (fullyQualifiedName (getScope st sid1) nm) []).1 sid2 =
        getScope st sid2 := getScope_subscope h2
    show subscope (subscope st sid1 (fullyQualifiedName (getScope st sid1) nm) []).1 sid2
        (fullyQualifiedName
          (getScope (subscope st sid1 (fullyQualifiedName (getScope st sid1) nm) []).1 sid2)
          nm) [] = _
    rw [hget]
    refine subscope_finds_registered hnd' hmem sid2 _ [] ?_
    rw [hget, mergeRightTags_nil_right, mergeRightTags_nil_right,
      fullyQualifiedName_congr hpfx.symm hsep.symm nm]
    exact keyMap_perm htags.symm hnd2 _
  · -- Tagged({}) is the identity
    show subscope st sid1 (getScope st sid1).pfx [] = _
    refine subscope_finds_registered hnd (hself sid1 h1) sid1 _ [] ?_
    rw [mergeRightTags_nil_right]
    rfl

/-- Witness for `scope_derivation_dedup` at a concrete input. -/
theorem scope_derivation_dedup_witness :
    (newRootScope "svc" [] "" true).WF ∧
    Tagged (newRootScope "svc" [] "" true) 0 [] = (newRootScope "svc" [] "" true, 0) :=
  ⟨by decide,
    (scope_derivation_dedup (newRootScope "svc" [] "" true) 0 0 [("a", "1")] [("a", "1")] "x"
      (by decide) (by decide) (by decide) rfl rfl (List.Perm.refl _) (List.Perm.refl _)
      (by decide)).2.2⟩

/-! ## The consumption race (C9) -/

theorem th_false (s : RaceState) : s.th false = s.t0 := rfl

theorem th_true (s : RaceState) : s.th true = s.t1 := rfl

theorem setTh_false (s : RaceState) (t : ConsumeThread) :
    s.setTh false t = { s with t0 := t } := rfl

theorem setTh_true (s : RaceState) (t : ConsumeThread) :
    s.setTh true t = { s with t1 := t } := rfl

theorem raceStep_acquire {s : RaceState} {i : Bool} (hp : (s.th i).pc = 0)
    (hl : s.lockHeld = none) :
    raceStep s i = { s.setTh i { s.th i with pc := 1 } with lockHeld := some i } := by
  unfold raceStep
  simp [hp, hl]

theorem raceStep_blocked {s : RaceState} {i : Bool} (hp : (s.th i).pc = 0)
    (hl : s.lockHeld ≠ none) : raceStep s i = s := by
  unfold raceStep
  simp [hp, hl]

theorem raceStep_load_curr {s : RaceState} {i : Bool} (hp : (s.th i).pc = 1) :
    raceStep s i = s.setTh i { s.th i with rCurr := s.curr, pc := 2 } := by
  unfold raceStep
  simp [hp]

theorem raceStep_load_prev {s : RaceState} {i : Bool} (hp : (s.th i).pc = 2) :
    raceStep s i = s.setTh i { s.th i with rPrev := s.prev, pc := 3 } := by
  unfold raceStep
  simp [hp]

theorem raceStep_test_eq {s : RaceState} {i : Bool} (hp : (s.th i).pc = 3)
    (he : (s.th i).rPrev = (s.th i).rCurr) :
    raceStep s i =
      { s.setTh i { s.th i with res := some 0, pc := 6 } with lockHeld := none } := by
  unfold raceStep
  simp [hp, he]

theorem raceStep_test_ne {s : RaceState} {i : Bool} (hp : (s.th i).pc = 3)
    (he : (s.th i).rPrev ≠ (s.th i).rCurr) :
    raceStep s i = s.setTh i { s.th i with pc := 4 } := by
  unfold raceStep
  simp [hp, he]

theorem raceStep_store {s : RaceState} {i : Bool} (hp : (s.th i).pc = 4) :
    raceStep s i = { s.setTh i { s.th i with pc := 5 } with prev := (s.th i).rCurr } := by
  unfold raceStep
  simp [hp]

theorem raceStep_finish {s : RaceState} {i : Bool} (hp : (s.th i).pc = 5) :
    raceStep s i =
      { s.setTh i { s.th i with
          res := some (wrapI64 ((s.th i).rCurr - (s.th i).rPrev)), pc := 6 } with
        lockHeld := none } := by
  unfold raceStep
  simp [hp]

theorem raceStep_other (s : RaceState) (i : Bool) (h0 : (s.th i).pc ≠ 0)
    (h1 : (s.th i).pc ≠ 1) (h2 : (s.th i).pc ≠ 2) (h3 : (s.th i).pc ≠ 3)
    (h4 : (s.th i).pc ≠ 4) (h5 : (s.th i).pc ≠ 5) : raceStep s i = s := by
  unfold raceStep
  simp [h0, h1, h2, h3, h4, h5]

/-- One step of thread 0 preserves the race invariant. -/
theorem raceStep_inv_false {c : Int} {s : RaceState} (h : RaceInv c s) :
    RaceInv c (raceStep s false) := by
  by_cases hp0 : s.t0.pc = 0
  · by_cases hl : s.lockHeld = none
    · rw [raceStep_acquire (by rw [th_false]; exact hp0) hl, th_false, setTh_false]
      refine ⟨h.curr_eq, h.range_c, h.range_prev, by simp, ?_, ?_, h.th1, h.res0, ?_,
        h.not_both⟩
      · refine ⟨fun heq => by simp at heq, fun hcs => ?_⟩
        have h2 := h.lock1.mpr hcs
        rw [hl] at h2
        exact absurd h2 (by simp)
      · exact ⟨by simp, fun hx => by simp at hx, fun hx => by simp at hx,
          fun hx => by simp at hx, fun hx => by simp at hx⟩
      · intro r hres hrne
        exact ⟨(h.res1 r hres hrne).1, by simp, by simp⟩
    · rw [raceStep_blocked (by rw [th_false]; exact hp0) hl]
      exact h
  · by_cases hp1 : s.t0.pc = 1
    · rw [raceStep_load_curr (by rw [th_false]; exact hp1), th_false, setTh_false]
      have hlock : s.lockHeld = some false := h.lock0.mpr ⟨by omega, by omega⟩
      refine ⟨h.curr_eq, h.range_c, h.range_prev, ?_, ?_, ?_, h.th1, h.res0, ?_, h.not_both⟩
      · rw [hlock]
        simp
      · rw [hlock]
        refine ⟨fun heq => by simp at heq, fun hcs => ?_⟩
        have h2 := h.lock1.mpr hcs
        rw [hlock] at h2
        exact absurd h2 (by simp)
      · exact ⟨by simp, fun _ => h.curr_eq, fun hx => by simp at hx,
          fun hx => by simp at hx, fun hx => by simp at hx⟩
      · intro r hres hrne
        exact ⟨(h.res1 r hres hrne).1, by simp, by simp⟩
    · by_cases hp2 : s.t0.pc = 2
      · rw [raceStep_load_prev (by rw [th_false]; exact hp2), th_false, setTh_false]
        have hlock : s.lockHeld = some false := h.lock0.mpr ⟨by omega, by omega⟩
        refine ⟨h.curr_eq, h.range_c, h.range_prev, ?_, ?_, ?_, h.th1, h.res0, ?_,
          h.not_both⟩
        · rw [hlock]
          simp
        · rw [hlock]
          refine ⟨fun heq => by simp at heq, fun hcs => ?_⟩
          have h2 := h.lock1.mpr hcs
          rw [hlock] at h2
          exact absurd h2 (by simp)
        · exact ⟨by simp, fun _ => h.th0.2.1 ⟨by omega, by omega⟩, fun _ => rfl,
            fun hx => by simp at hx, fun hx => by simp at hx⟩
        · intro r hres hrne
          exact ⟨(h.res1 r hres hrne).1, by simp, by simp⟩
      · by_cases hp3 : s.t0.pc = 3
        · have hlock : s.lockHeld = some false := h.lock0.mpr ⟨by omega, by omega⟩
          have ht1cs : ¬(1 ≤ s.t1.pc ∧ s.t1.pc ≤ 5) := by
            intro hcs
            have h2 := h.lock1.mpr hcs
            rw [hlock] at h2
            exact absurd h2 (by simp)
          have hrPrev : s.t0.rPrev = s.prev := h.th0.2.2.1 hp3
          have hrCurr : s.t0.rCurr = c := h.th0.2.1 ⟨by omega, by omega⟩
          by_cases he : s.t0.rPrev = s.t0.rCurr
          · rw [raceStep_test_eq (by rw [th_false]; exact hp3) (by rw [th_false]; exact he),
              th_false, setTh_false]
            refine ⟨h.curr_eq, h.range_c, h.range_prev, ?_, ?_, ?_, h.th1, ?_, ?_, ?_⟩
            · refine ⟨fun heq => by simp at heq, fun hcs => by simp at hcs⟩
            · exact ⟨fun heq => by simp at heq, fun hcs => absurd hcs ht1cs⟩
            · exact ⟨by simp, fun hx => by simp at hx,
                fun hx => by simp at hx, fun hx => by simp at hx,
                fun hx => by simp at hx⟩
            · intro r hres hrne
              exact absurd (Option.some.inj hres).symm hrne
            · intro r hres hrne
              exact ⟨(h.res1 r hres hrne).1, by simp, by simp⟩
            · rintro ⟨r0, r1, hres0, hne0, -, -⟩
              exact absurd (Option.some.inj hres0).symm hne0
          · rw [raceStep_test_ne (by rw [th_false]; exact hp3) (by rw [th_false]; exact he),
              th_false, setTh_false]
            refine ⟨h.curr_eq, h.range_c, h.range_prev, ?_, ?_, ?_, h.th1, h.res0, ?_,
              h.not_both⟩
            · rw [hlock]
              simp
            · rw [hlock]
              refine ⟨fun heq => by simp at heq, fun hcs => absurd hcs ht1cs⟩
            · refine ⟨by simp, fun _ => hrCurr, fun hx => by simp at hx, ?_,
                fun hx => by simp at hx⟩
              intro _
              refine ⟨hrPrev, fun heq => he (by rw [heq, hrCurr])⟩
            · intro r hres hrne
              have hpc := (h.res1 r hres hrne).1
              have : s.t0.rPrev = s.t0.rCurr := by rw [hrPrev, hpc, hrCurr]
              exact absurd this he
        · by_cases hp4 : s.t0.pc = 4
          · rw [raceStep_store (by rw [th_false]; exact hp4), th_false, setTh_false]
            have hlock : s.lockHeld = some false := h.lock0.mpr ⟨by omega, by omega⟩
            have ht1cs : ¬(1 ≤ s.t1.pc ∧ s.t1.pc ≤ 5) := by
              intro hcs
              have h2 := h.lock1.mpr hcs
              rw [hlock] at h2
              exact absurd h2 (by simp)
            have hrCurr : s.t0.rCurr = c := h.th0.2.1 ⟨by omega, by omega⟩
            have hp4' := h.th0.2.2.2.1 hp4
            refine ⟨h.curr_eq, h.range_c, ?_, ?_, ?_, ?_, ?_, ?_, ?_, h.not_both⟩
            · show I64Range s.t0.rCurr
              rw [hrCurr]
              exact h.range_c
            · rw [hlock]
              simp
            · rw [hlock]
              refine ⟨fun heq => by simp at heq, fun hcs => absurd hcs ht1cs⟩
            · refine ⟨by simp, fun _ => hrCurr, fun hx => by simp at hx,
                fun hx => by simp at hx, ?_⟩
              intro _
              exact ⟨hrCurr, hp4'.2, by rw [hp4'.1]; exact h.range_prev⟩
            · refine ⟨h.th1.1, h.th1.2.1, ?_, ?_, ?_⟩
              · intro hx
                have hx' : s.t1.pc = 3 := hx
                exact absurd (⟨by omega, by omega⟩ : 1 ≤ s.t1.pc ∧ s.t1.pc ≤ 5) ht1cs
              · intro hx
                have hx' : s.t1.pc = 4 := hx
                exact absurd (⟨by omega, by omega⟩ : 1 ≤ s.t1.pc ∧ s.t1.pc ≤ 5) ht1cs
              · intro hx
                have hx' : s.t1.pc = 5 := hx
                exact absurd (⟨by omega, by omega⟩ : 1 ≤ s.t1.pc ∧ s.t1.pc ≤ 5) ht1cs
            · intro r hres hrne
              refine ⟨hrCurr, ?_, ?_⟩
              · intro hx
                have hx' : s.t1.pc = 4 := hx
                exact absurd (⟨by omega, by omega⟩ : 1 ≤ s.t1.pc ∧ s.t1.pc ≤ 5) ht1cs
              · intro hx
                have hx' : s.t1.pc = 5 := hx
                exact absurd (⟨by omega, by omega⟩ : 1 ≤ s.t1.pc ∧ s.t1.pc ≤ 5) ht1cs
            · intro r hres hrne
              exact absurd hp4 (h.res1 r hres hrne).2.1
          · by_cases hp5 : s.t0.pc = 5
            · rw [raceStep_finish (by rw [th_false]; exact hp5), th_false, setTh_false]
              have hlock : s.lockHeld = some false := h.lock0.mpr ⟨by omega, by omega⟩
              have ht1cs : ¬(1 ≤ s.t1.pc ∧ s.t1.pc ≤ 5) := by
                intro hcs
                have h2 := h.lock1.mpr hcs
                rw [hlock] at h2
                exact absurd h2 (by simp)
              obtain ⟨hprevc, hrnec, hrrange⟩ := h.th0.2.2.2.2 hp5
              refine ⟨h.curr_eq, h.range_c, h.range_prev, ?_, ?_, ?_, h.th1, ?_, ?_, ?_⟩
              · refine ⟨fun heq => by simp at heq, fun hcs => by simp at hcs⟩
              · exact ⟨fun heq => by simp at heq, fun hcs => absurd hcs ht1cs⟩
              · exact ⟨by simp, fun hx => by simp at hx,
                  fun hx => by simp at hx, fun hx => by simp at hx,
                  fun hx => by simp at hx⟩
              · intro r hres hrne
                refine ⟨hprevc, ?_, ?_⟩
                · intro hx
                  have hx' : s.t1.pc = 4 := hx
                  exact absurd (⟨by omega, by omega⟩ : 1 ≤ s.t1.pc ∧ s.t1.pc ≤ 5) ht1cs
                · intro hx
                  have hx' : s.t1.pc = 5 := hx
                  exact absurd (⟨by omega, by omega⟩ : 1 ≤ s.t1.pc ∧ s.t1.pc ≤ 5) ht1cs
              · intro r hres hrne
                exact ⟨hprevc, by simp, by simp⟩
              · rintro ⟨r0, r1, -, -, hres1, hne1⟩
                exact absurd hp5 (h.res1 r1 hres1 hne1).2.2
            · rw [raceStep_other s false (by rw [th_false]; exact hp0)
                (by rw [th_false]; exact hp1) (by rw [th_false]; exact hp2)
                (by rw [th_false]; exact hp3) (by rw [th_false]; exact hp4)
                (by rw [th_false]; exact hp5)]
              exact h

/-- One step of thread 1 preserves the race invariant (mirror image of
`raceStep_inv_false`). -/
theorem raceStep_inv_true {c : Int} {s : RaceState} (h : RaceInv c s) :
    RaceInv c (raceStep s true) := by
  by_cases hp0 : s.t1.pc = 0
  · by_cases hl : s.lockHeld = none
    · rw [raceStep_acquire (by rw [th_true]; exact hp0) hl, th_true, setTh_true]
      refine ⟨h.curr_eq, h.range_c, h.range_prev, ?_, by simp, h.th0, ?_, ?_, h.res1,
        h.not_both⟩
      · refine ⟨fun heq => by simp at heq, fun hcs => ?_⟩
        have h2 := h.lock0.mpr hcs
        rw [hl] at h2
        exact absurd h2 (by simp)
      · exact ⟨by simp, fun hx => by simp at hx, fun hx => by simp at hx,
          fun hx => by simp at hx, fun hx => by simp at hx⟩
      · intro r hres hrne
        exact ⟨(h.res0 r hres hrne).1, by simp, by simp⟩
    · rw [raceStep_blocked (by rw [th_true]; exact hp0) hl]
      exact h
  · by_cases hp1 : s.t1.pc = 1
    · rw [raceStep_load_curr (by rw [th_true]; exact hp1), th_true, setTh_true]
      have hlock : s.lockHeld = some true := h.lock1.mpr ⟨by omega, by omega⟩
      refine ⟨h.curr_eq, h.range_c, h.range_prev, ?_, ?_, h.th0, ?_, ?_, h.res1,
        h.not_both⟩
      · rw [hlock]
        refine ⟨fun heq => by simp at heq, fun hcs => ?_⟩
        have h2 := h.lock0.mpr hcs
        rw [hlock] at h2
        exact absurd h2 (by simp)
      · rw [hlock]
        simp
      · exact ⟨by simp, fun _ => h.curr_eq, fun hx => by simp at hx,
          fun hx => by simp at hx, fun hx => by simp at hx⟩
      · intro r hres hrne
        exact ⟨(h.res0 r hres hrne).1, by simp, by simp⟩
    · by_cases hp2 : s.t1.pc = 2
      · rw [raceStep_load_prev (by rw [th_true]; exact hp2), th_true, setTh_true]
        have hlock : s.lockHeld = some true := h.lock1.mpr ⟨by omega, by omega⟩
        refine ⟨h.curr_eq, h.range_c, h.range_prev, ?_, ?_, h.th0, ?_, ?_, h.res1,
          h.not_both⟩
        · rw [hlock]
          refine ⟨fun heq => by simp at heq, fun hcs => ?_⟩
          have h2 := h.lock0.mpr hcs
          rw [hlock] at h2
          exact absurd h2 (by simp)
        · rw [hlock]
          simp
        · exact ⟨by simp, fun _ => h.th1.2.1 ⟨by omega, by omega⟩, fun _ => rfl,
            fun hx => by simp at hx, fun hx => by simp at hx⟩
        · intro r hres hrne
          exact ⟨(h.res0 r hres hrne).1, by simp, by simp⟩
      · by_cases hp3 : s.t1.pc = 3
        · have hlock : s.lockHeld = some true := h.lock1.mpr ⟨by omega, by omega⟩
          have ht0cs : ¬(1 ≤ s.t0.pc ∧ s.t0.pc ≤ 5) := by
            intro hcs
            have h2 := h.lock0.mpr hcs
            rw [hlock] at h2
            exact absurd h2 (by simp)
          have hrPrev : s.t1.rPrev = s.prev := h.th1.2.2.1 hp3
          have hrCurr : s.t1.rCurr = c := h.th1.2.1 ⟨by omega, by omega⟩
          by_cases he : s.t1.rPrev = s.t1.rCurr
          · rw [raceStep_test_eq (by rw [th_true]; exact hp3) (by rw [th_true]; exact he),
              th_true, setTh_true]
            refine ⟨h.curr_eq, h.range_c, h.range_prev, ?_, ?_, h.th0, ?_, ?_, ?_, ?_⟩
            · exact ⟨fun heq => by simp at heq, fun hcs => absurd hcs ht0cs⟩
            · refine ⟨fun heq => by simp at heq, fun hcs => by simp at hcs⟩
            · exact ⟨by simp, fun hx => by simp at hx, fun hx => by simp at hx,
                fun hx => by simp at hx, fun hx => by simp at hx⟩
            · intro r hres hrne
              exact ⟨(h.res0 r hres hrne).1, by simp, by simp⟩
            · intro r hres hrne
              exact absurd (Option.some.inj hres).symm hrne
            · rintro ⟨r0, r1, -, -, hres1, hne1⟩
              exact absurd (Option.some.inj hres1).symm hne1
          · rw [raceStep_test_ne (by rw [th_true]; exact hp3) (by rw [th_true]; exact he),
              th_true, setTh_true]
            refine ⟨h.curr_eq, h.range_c, h.range_prev, ?_, ?_, h.th0, ?_, ?_, h.res1,
              h.not_both⟩
            · rw [hlock]
              refine ⟨fun heq => by simp at heq, fun hcs => absurd hcs ht0cs⟩
            · rw [hlock]
              simp
            · refine ⟨by simp, fun _ => hrCurr, fun hx => by simp at hx, ?_,
                fun hx => by simp at hx⟩
              intro _
              refine ⟨hrPrev, fun heq => he (by rw [heq, hrCurr])⟩
            · intro r hres hrne
              have hpc := (h.res0 r hres hrne).1
              have hcontra : s.t1.rPrev = s.t1.rCurr := by rw [hrPrev, hpc, hrCurr]
              exact absurd hcontra he
        · by_cases hp4 : s.t1.pc = 4
          · rw [raceStep_store (by rw [th_true]; exact hp4), th_true, setTh_true]
            have hlock : s.lockHeld = some true := h.lock1.mpr ⟨by omega, by omega⟩
            have ht0cs : ¬(1 ≤ s.t0.pc ∧ s.t0.pc ≤ 5) := by
              intro hcs
              have h2 := h.lock0.mpr hcs
              rw [hlock] at h2
              exact absurd h2 (by simp)
            have hrCurr : s.t1.rCurr = c := h.th1.2.1 ⟨by omega, by omega⟩
            have hp4' := h.th1.2.2.2.1 hp4
            refine ⟨h.curr_eq, h.range_c, ?_, ?_, ?_, ?_, ?_, ?_, ?_, h.not_both⟩
            · show I64Range s.t1.rCurr
              rw [hrCurr]
              exact h.range_c
            · rw [hlock]
              refine ⟨fun heq => by simp at heq, fun hcs => absurd hcs ht0cs⟩
            · rw [hlock]
              simp
            · refine ⟨h.th0.1, h.th0.2.1, ?_, ?_, ?_⟩
              · intro hx
                have hx' : s.t0.pc = 3 := hx
                exact absurd (⟨by omega, by omega⟩ : 1 ≤ s.t0.pc ∧ s.t0.pc ≤ 5) ht0cs
              · intro hx
                have hx' : s.t0.pc = 4 := hx
                exact absurd (⟨by omega, by omega⟩ : 1 ≤ s.t0.pc ∧ s.t0.pc ≤ 5) ht0cs
              · intro hx
                have hx' : s.t0.pc = 5 := hx
                exact absurd (⟨by omega, by omega⟩ : 1 ≤ s.t0.pc ∧ s.t0.pc ≤ 5) ht0cs
            · refine ⟨by simp, fun _ => hrCurr, fun hx => by simp at hx,
                fun hx => by simp at hx, ?_⟩
              intro _
              exact ⟨hrCurr, hp4'.2, by rw [hp4'.1]; exact h.range_prev⟩
            · intro r hres hrne
              exact absurd hp4 (h.res0 r hres hrne).2.1
            · intro r hres hrne
              refine ⟨hrCurr, ?_, ?_⟩
              · intro hx
                have hx' : s.t0.pc = 4 := hx
                exact absurd (⟨by omega, by omega⟩ : 1 ≤ s.t0.pc ∧ s.t0.pc ≤ 5) ht0cs
              · intro hx
                have hx' : s.t0.pc = 5 := hx
                exact absurd (⟨by omega, by omega⟩ : 1 ≤ s.t0.pc ∧ s.t0.pc ≤ 5) ht0cs
          · by_cases hp5 : s.t1.pc = 5
            · rw [raceStep_finish (by rw [th_true]; exact hp5), th_true, setTh_true]
              have hlock : s.lockHeld = some true := h.lock1.mpr ⟨by omega, by omega⟩
              have ht0cs : ¬(1 ≤ s.t0.pc ∧ s.t0.pc ≤ 5) := by
                intro hcs
                have h2 := h.lock0.mpr hcs
                rw [hlock] at h2
                exact absurd h2 (by simp)
              obtain ⟨hprevc, hrnec, hrrange⟩ := h.th1.2.2.2.2 hp5
              refine ⟨h.curr_eq, h.range_c, h.range_prev, ?_, ?_, h.th0, ?_, ?_, ?_, ?_⟩
              · exact ⟨fun heq => by simp at heq, fun hcs => absurd hcs ht0cs⟩
              · refine ⟨fun heq => by simp at heq, fun hcs => by simp at hcs⟩
              · exact ⟨by simp, fun hx => by simp at hx, fun hx => by simp at hx,
                  fun hx => by simp at hx, fun hx => by simp at hx⟩
              · intro r hres hrne
                exact ⟨hprevc, by simp, by simp⟩
              · intro r hres hrne
                refine ⟨hprevc, ?_, ?_⟩
                · intro hx
                  have hx' : s.t0.pc = 4 := hx
                  exact absurd (⟨by omega, by omega⟩ : 1 ≤ s.t0.pc ∧ s.t0.pc ≤ 5) ht0cs
                · intro hx
                  have hx' : s.t0.pc = 5 := hx
                  exact absurd (⟨by omega, by omega⟩ : 1 ≤ s.t0.pc ∧ s.t0.pc ≤ 5) ht0cs
              · rintro ⟨r0, r1, hres0, hne0, -, -⟩
                exact absurd hp5 (h.res0 r0 hres0 hne0).2.2
            · rw [raceStep_other s true (by rw [th_true]; exact hp0)
                (by rw [th_true]; exact hp1) (by rw [th_true]; exact hp2)
                (by rw [th_true]; exact hp3) (by rw [th_true]; exact hp4)
                (by rw [th_true]; exact hp5)]
              exact h

theorem raceStep_inv {c : Int} {s : RaceState} (h : RaceInv c s) :
    ∀ i, RaceInv c (raceStep s i)
  | false => raceStep_inv_false h
  | true => raceStep_inv_true h

theorem raceRun_inv {c : Int} :
    ∀ (sched : List Bool) (s : RaceState), RaceInv c s → RaceInv c (raceRun s sched)
  | [], _, h => h
  | i :: rest, s, h => by
    show RaceInv c ((i :: rest).foldl raceStep s)
    rw [List.foldl_cons]
    exact raceRun_inv rest (raceStep s i) (raceStep_inv h i)

theorem raceInit_inv {p c : Int} (hp : I64Range p) (hc : I64Range c) :
    RaceInv c (raceInit p c) := by
  refine ⟨rfl, hc, hp, ?_, ?_, ?_, ?_, ?_, ?_, ?_⟩
  · exact ⟨fun heq => by simp [raceInit] at heq, fun hcs => by
      have hcs' : 1 ≤ (0 : Nat) := hcs.1
      omega⟩
  · exact ⟨fun heq => by simp [raceInit] at heq, fun hcs => by
      have hcs' : 1 ≤ (0 : Nat) := hcs.1
      omega⟩
  · exact ⟨by simp [raceInit, newThread], fun hx => by simp [raceInit, newThread] at hx,
      fun hx => by simp [raceInit, newThread] at hx,
      fun hx => by simp [raceInit, newThread] at hx,
      fun hx => by simp [raceInit, newThread] at hx⟩
  · exact ⟨by simp [raceInit, newThread], fun hx => by simp [raceInit, newThread] at hx,
      fun hx => by simp [raceInit, newThread] at hx,
      fun hx => by simp [raceInit, newThread] at hx,
      fun hx => by simp [raceInit, newThread] at hx⟩
  · intro r hres
    exact absurd hres (by simp [raceInit, newThread])
  · intro r hres
    exact absurd hres (by simp [raceInit, newThread])
  · rintro ⟨r0, r1, hres0, -, -, -⟩
    exact absurd hres0 (by simp [raceInit, newThread])

/-- C9: consumption is serialised, so no interval of updates is counted
twice.  For any interleaving (schedule) of two `counter.value()` calls —
each an instruction-level sequence of atomic loads, a compare, an atomic
store, protected by the registry mutex exactly as every consumption in the
program is — over a fixed interval of updates (baseline `p`, total `c`), at
most one of the two calls returns a nonzero delta. -/
theorem consume_race_at_most_one_nonzero (p c : Int) (sched : List Bool)
    (hp : I64Range p) (hc : I64Range c) (r0 r1 : Int)
    (h0 : (raceRun (raceInit p c) sched).t0.res = some r0)
    (h1 : (raceRun (raceInit p c) sched).t1.res = some r1) :
    r0 = 0 ∨ r1 = 0 := by
  have hinv : RaceInv c (raceRun (raceInit p c) sched) :=
    raceRun_inv sched _ (raceInit_inv hp hc)
  by_contra hne
  push_neg at hne
  exact hinv.not_both ⟨r0, r1, h0, hne.1, h1, hne.2⟩

/-- Witness for `consume_race_at_most_one_nonzero` at a concrete input:
thread 0 runs its whole consumption first (getting delta 5), then thread 1
runs and observes 0. -/
theorem consume_race_witness :
    (raceRun (raceInit 0 5)
        [false, false, false, false, false, false, true, true, true, true]).t0.res =
      some 5 ∧
    (raceRun (raceInit 0 5)
        [false, false, false, false, false, false, true, true, true, true]).t1.res =
      some 0 ∧
    ((5 : Int) = 0 ∨ (0 : Int) = 0) :=
  ⟨by decide, by decide,
    consume_race_at_most_one_nonzero 0 5
      [false, false, false, false, false, false, true, true, true, true]
      (by decide) (by decide) 5 0 (by decide) (by decide)⟩

end Agent
